import Mathlib

/-!
# Verification of the simple-redis protocol and command core

A shallow embedding of the `simple-redis` repository: the RESP frame
model and its encoder (`src/resp/encode.rs`), the hash-map commands and
their executors (`src/cmd/hmap.rs`), and — modelled from the spec where
the repository file is not available — the backend store, the command
validation helpers, and the streaming decoder.

Strings are modelled as lists of byte values (`List Nat`); an `f64` is
modelled as an exact decimal value `m * 10^e` (no NaN/infinity).
-/

namespace SimpleRedis

/-! ## Bytes and decimal digit rendering -/

/-- Carriage return / line feed byte pair terminating every RESP line. -/
def CRLF : List Nat := [13, 10]

/-- Fuel-driven digit accumulation (structural, so it reduces in the
kernel). -/
def natDecGo (fuel : Nat) (n : Nat) (acc : List Nat) : List Nat :=
  match fuel with
  | 0 => acc
  | fuel + 1 => if n = 0 then acc else natDecGo fuel (n / 10) ((n % 10 + 48) :: acc)

/-- ASCII decimal digits of a natural number, most significant first
(the rendering `format!("{}", n)` produces for a `usize`/`u64`). -/
def natDec (n : Nat) : List Nat :=
  if n = 0 then [48] else natDecGo n n []

/-- ASCII decimal rendering of an integer: a `-` sign when negative,
then the digits (what `format!("{}", i)` produces for an `i64`). -/
def intDec (i : Int) : List Nat :=
  if i < 0 then 45 :: natDec i.natAbs else natDec i.natAbs

/-- Big-endian recomposition of raw digit values. -/
def digitsVal (l : List Nat) : Nat := l.foldl (fun acc d => acc * 10 + d) 0

/-- A byte is an ASCII digit. -/
def isDigit (b : Nat) : Bool := decide (48 ≤ b) && decide (b ≤ 57)

/-- Parse a non-empty all-digit byte list as a natural number
(modelled from the spec: numeric line parsing in the decoder). -/
def parseNatDigits (l : List Nat) : Option Nat :=
  if l ≠ [] ∧ l.all isDigit then some (digitsVal (l.map (fun b => b - 48))) else none

/-! ## Exact decimal model of `f64`

An `f64` is modelled as an exact decimal value `m * 10^e` (no NaN or
infinity).  Rust's shortest-round-trip float formatting is modelled, on
this domain, as printing the normalised decimal (trailing zeros of the
mantissa absorbed into the exponent), which agrees with `format!("{}")`
and `format!("{:+e}")` on decimal-representable values. -/

structure Dec where
  m : Int
  e : Int
deriving DecidableEq, Repr

/-- Fuel-driven ten-stripping loop (structural, kernel-reducible). -/
def stripTensGo (fuel : Nat) (n : Nat) : Nat × Nat :=
  match fuel with
  | 0 => (n, 0)
  | fuel + 1 =>
    if n ≠ 0 ∧ n % 10 = 0 then
      let p := stripTensGo fuel (n / 10)
      (p.1, p.2 + 1)
    else (n, 0)

/-- Strip factors of ten: `stripTens n = (a, k)` with `n = a * 10^k` and
`a` not divisible by ten (for `n ≠ 0`). -/
def stripTens (n : Nat) : Nat × Nat := stripTensGo n n

/-- Normalised form of a decimal: zero is `0 * 10^0`, otherwise the
mantissa is not divisible by ten. -/
def Dec.norm (d : Dec) : Dec :=
  if d.m = 0 then ⟨0, 0⟩
  else
    let p := stripTens d.m.natAbs
    ⟨if d.m < 0 then -(p.1 : Int) else (p.1 : Int), d.e + (p.2 : Int)⟩

/-- Exact rational value of a decimal. -/
def Dec.toRat (d : Dec) : ℚ := (d.m : ℚ) * 10 ^ d.e

/-- `self.abs() > 1e8`, computed on integers: `|m * 10^e| > 10^8`. -/
def Dec.absGtBig (d : Dec) : Bool :=
  if 0 ≤ d.e then 10 ^ 8 < d.m.natAbs * 10 ^ d.e.toNat
  else 10 ^ 8 * 10 ^ (-d.e).toNat < d.m.natAbs

/-- `self.abs() < 1e-8`, computed on integers: `|m * 10^e| < 10^-8`. -/
def Dec.absLtSmall (d : Dec) : Bool :=
  if 0 ≤ d.e then d.m.natAbs * 10 ^ d.e.toNat * 10 ^ 8 < 1
  else d.m.natAbs * 10 ^ 8 < 10 ^ (-d.e).toNat

/-- Rust's `format!("{:+e}")` (`LowerExp` with the `+` flag), modelled on
exact decimals: explicit sign on the mantissa, single leading digit of
the normalised mantissa, remaining digits after `.` when present, then
`e` and the exponent with a sign only when negative. -/
def fmtExpPlus (d : Dec) : List Nat :=
  (if (Dec.norm d).m < 0 then [45] else [43]) ++
    (natDec (Dec.norm d).m.natAbs).take 1 ++
    (if (natDec (Dec.norm d).m.natAbs).length ≤ 1 then []
     else 46 :: (natDec (Dec.norm d).m.natAbs).drop 1) ++
    101 :: intDec ((Dec.norm d).e +
      (((natDec (Dec.norm d).m.natAbs).length - 1 : Nat) : Int))

/-- Rust's `format!("{}")` (`Display`) for `f64`, modelled on exact
decimals: positional notation, `-` sign only when negative, no exponent. -/
def fmtDisplay (d : Dec) : List Nat :=
  (if (Dec.norm d).m < 0 then [45] else []) ++
    (if 0 ≤ (Dec.norm d).e then
      natDec (Dec.norm d).m.natAbs ++ List.replicate (Dec.norm d).e.toNat 48
     else if (-(Dec.norm d).e).toNat < (natDec (Dec.norm d).m.natAbs).length then
      (natDec (Dec.norm d).m.natAbs).take
          ((natDec (Dec.norm d).m.natAbs).length - (-(Dec.norm d).e).toNat) ++
        46 :: (natDec (Dec.norm d).m.natAbs).drop
          ((natDec (Dec.norm d).m.natAbs).length - (-(Dec.norm d).e).toNat)
     else [48, 46] ++ List.replicate ((-(Dec.norm d).e).toNat -
        (natDec (Dec.norm d).m.natAbs).length) 48 ++ natDec (Dec.norm d).m.natAbs)

/-- Body (between the `,` tag and the CRLF) of the `f64` encoding, from
`impl RespEncode for f64` in `src/resp/encode.rs`: scientific `{:+e}`
when `|v| > 1e8 || |v| < 1e-8`, else an explicit `+` for non-negative
values followed by `{}` (`self < 0.0` iff `m < 0`). -/
def doubleBody (d : Dec) : List Nat :=
  if d.absGtBig || d.absLtSmall then
    fmtExpPlus d
  else
    (if d.m < 0 then [] else [43]) ++ fmtDisplay d

/-! ## The RESP frame model

Modelled from the spec: the `RespFrame` enum itself (`src/resp/mod.rs`)
is not under `src/`; the variants and their tag bytes follow the spec's
frame table (§3).  Text is represented by its byte sequence. -/

inductive RespFrame where
  | SimpleString (s : List Nat)
  | SimpleError (s : List Nat)
  | Integer (i : Int)
  | BulkString (b : List Nat)
  | NullBulkString
  | Array (xs : List RespFrame)
  | NullArray
  | Null
  | Boolean (b : Bool)
  | Double (d : Dec)
  | Map (ps : List (List Nat × RespFrame))
  | Set (xs : List RespFrame)

/-! ## Encoder, from `src/resp/encode.rs`

Tag bytes: `+` 43, `-` 45, `:` 58, `$` 36, `*` 42, `_` 95, `#` 35,
`,` 44, `%` 37, `~` 126.  A `Map` frame holds the entry list of a
`BTreeMap`, i.e. its pairs sorted by key; `encodeFrame` emits whatever
pair list the frame holds, exactly as the source iterates `self.0`,
with the key re-encoded as a SimpleString. -/

mutual

def encodeFrame : RespFrame → List Nat
  | .SimpleString s => 43 :: s ++ CRLF
  | .SimpleError s => 45 :: s ++ CRLF
  | .Integer i => 58 :: (if i < 0 then [] else [43]) ++ intDec i ++ CRLF
  | .BulkString b => 36 :: natDec b.length ++ CRLF ++ b ++ CRLF
  | .NullBulkString => [36, 45, 49, 13, 10]
  | .Array xs => 42 :: natDec xs.length ++ CRLF ++ encodeList xs
  | .NullArray => [42, 45, 49, 13, 10]
  | .Null => [95, 13, 10]
  | .Boolean b => 35 :: (if b then 116 else 102) :: CRLF
  | .Double d => 44 :: doubleBody d ++ CRLF
  | .Map ps => 37 :: natDec ps.length ++ CRLF ++ encodePairs ps
  | .Set xs => 126 :: natDec xs.length ++ CRLF ++ encodeList xs

def encodeList : List RespFrame → List Nat
  | [] => []
  | x :: xs => encodeFrame x ++ encodeList xs

def encodePairs : List (List Nat × RespFrame) → List Nat
  | [] => []
  | (k, v) :: ps => (43 :: k ++ CRLF) ++ encodeFrame v ++ encodePairs ps

end

/-! ## RespMap insertion

Modelled from the spec: `RespMap` (`src/resp/mod.rs`) wraps a
`BTreeMap<String, RespFrame>` — not under `src/`, but the in-repository
test `test_map_encode` (src/resp/encode.rs) exhibits its sorted-by-key
iteration order.  Modelled as insertion into a key-sorted entry list,
replacing the value on an equal key. -/

/-- Byte-lexicographic strict order on keys (Rust's `Ord` on `String`). -/
def bytesLt : List Nat → List Nat → Bool
  | [], [] => false
  | [], _ :: _ => true
  | _ :: _, [] => false
  | a :: as, b :: bs => if a < b then true else if a = b then bytesLt as bs else false

/-- `BTreeMap::insert` on the sorted entry list. -/
def insertPair (k : List Nat) (v : RespFrame) :
    List (List Nat × RespFrame) → List (List Nat × RespFrame)
  | [] => [(k, v)]
  | (k', v') :: rest =>
    if bytesLt k k' then (k, v) :: (k', v') :: rest
    else if k = k' then (k, v) :: rest
    else (k', v') :: insertPair k v rest

/-- Entry list of the map built by a sequence of insertions into an
initially empty `RespMap`. -/
def mapOfInserts (l : List (List Nat × RespFrame)) : List (List Nat × RespFrame) :=
  l.foldl (fun m p => insertPair p.1 p.2 m) []

/-- Strict key order on map entries. -/
def pairLt (p q : List Nat × RespFrame) : Prop := bytesLt p.1 q.1 = true

/-! ## Backend store

Modelled from the spec: the `Backend` (`src/backend/mod.rs`) is not
under `src/`; per §3 and §4.4 its `HashStore` maps a key to a nested
mapping from field to frame, created lazily on first write, with upsert
semantics and total lookups.  Modelled as association lists (first
match wins), keys as byte strings. -/

/-- Association-list lookup (first match wins). -/
def assocGet {α : Type} (k : List Nat) : List (List Nat × α) → Option α
  | [] => none
  | (k', v) :: rest => if k = k' then some v else assocGet k rest

/-- Association-list insert-or-overwrite (replaces the first match). -/
def assocPut {α : Type} (k : List Nat) (v : α) :
    List (List Nat × α) → List (List Nat × α)
  | [] => [(k, v)]
  | (k', v') :: rest => if k = k' then (k, v) :: rest else (k', v') :: assocPut k v rest

structure Backend where
  hmap : List (List Nat × List (List Nat × RespFrame))

/-- `Backend::hget`: nested lookup, `None` when the key or the field is
absent. -/
def Backend.hget (b : Backend) (key fieldName : List Nat) : Option RespFrame :=
  match assocGet key b.hmap with
  | none => none
  | some fields => assocGet fieldName fields

/-- `Backend::hset`: create the key's nested mapping if absent, then
insert/overwrite the field. -/
def Backend.hset (b : Backend) (key fieldName : List Nat) (v : RespFrame) : Backend :=
  match assocGet key b.hmap with
  | some fields => ⟨assocPut key (assocPut fieldName v fields) b.hmap⟩
  | none => ⟨assocPut key [(fieldName, v)] b.hmap⟩

/-! ## Commands, from `src/cmd/hmap.rs`

The command structs, `RESP_OK`, `CommandError`, `validate_command` and
`extract_args` live in `src/cmd/mod.rs`, which is not under `src/`;
those are modelled from the spec (§4.3, §4.4, §6).  The `execute` and
`try_from` bodies below are translated from `src/cmd/hmap.rs`. -/

structure HGet where
  key : List Nat
  field : List Nat

structure HSet where
  key : List Nat
  field : List Nat
  value : RespFrame

structure HGetAll where
  key : List Nat

/-- Modelled from the spec: `RESP_OK` (`src/cmd/mod.rs`) is the canonical
OK reply, the SimpleString whose encoding is `+OK\r\n` (§6). -/
def RESP_OK : RespFrame := .SimpleString [79, 75]

/-- `impl CommandExecutor for HGet`: `Null` when `hget` misses, else the
stored frame. -/
def HGet.execute (self : HGet) (backend : Backend) : RespFrame :=
  match backend.hget self.key self.field with
  | none => RespFrame.Null
  | some value => value

/-- `impl CommandExecutor for HSet`: store, then reply `RESP_OK`.  The
mutation of the shared backend is modelled by returning the updated
store alongside the reply. -/
def HSet.execute (self : HSet) (backend : Backend) : RespFrame × Backend :=
  (RESP_OK, backend.hset self.key self.field self.value)

/-- `impl CommandExecutor for HGetAll`: when the key is present, build a
`RespMap` by inserting every stored (field, value) pair; when absent,
reply an empty Array. -/
def HGetAll.execute (self : HGetAll) (backend : Backend) : RespFrame :=
  match assocGet self.key backend.hmap with
  | some hmap => .Map (hmap.foldl (fun m p => insertPair p.1 p.2 m) [])
  | none => .Array []

/-- Modelled from the spec: command-layer errors (`src/cmd/mod.rs`); per
§4.3 every validation failure (shape, arity, name, non-text argument)
is an InvalidArgument. -/
inductive CommandError where
  | InvalidArgument (msg : String)
deriving DecidableEq, Repr

/-- Lowercase an ASCII byte string (case-insensitive name comparison). -/
def lowerBytes (l : List Nat) : List Nat :=
  l.map (fun b => if 65 ≤ b ∧ b ≤ 90 then b + 32 else b)

/-- UTF-8 continuation byte. -/
def utf8Cont (c : Nat) : Bool := decide (128 ≤ c) && decide (c ≤ 191)

/-- Fuel-driven UTF-8 validation loop over the byte classes of RFC 3629. -/
def validUtf8Go (fuel : Nat) (l : List Nat) : Bool :=
  match fuel with
  | 0 => l.isEmpty
  | fuel + 1 =>
    match l with
    | [] => true
    | b :: rest =>
      if b ≤ 127 then validUtf8Go fuel rest
      else if 194 ≤ b ∧ b ≤ 223 then
        match rest with
        | c1 :: r => utf8Cont c1 && validUtf8Go fuel r
        | _ => false
      else if b = 224 then
        match rest with
        | c1 :: c2 :: r =>
          (decide (160 ≤ c1) && decide (c1 ≤ 191)) && utf8Cont c2 && validUtf8Go fuel r
        | _ => false
      else if (225 ≤ b ∧ b ≤ 236) ∨ b = 238 ∨ b = 239 then
        match rest with
        | c1 :: c2 :: r => utf8Cont c1 && utf8Cont c2 && validUtf8Go fuel r
        | _ => false
      else if b = 237 then
        match rest with
        | c1 :: c2 :: r =>
          (decide (128 ≤ c1) && decide (c1 ≤ 159)) && utf8Cont c2 && validUtf8Go fuel r
        | _ => false
      else if b = 240 then
        match rest with
        | c1 :: c2 :: c3 :: r =>
          (decide (144 ≤ c1) && decide (c1 ≤ 191)) && utf8Cont c2 && utf8Cont c3 &&
            validUtf8Go fuel r
        | _ => false
      else if 241 ≤ b ∧ b ≤ 243 then
        match rest with
        | c1 :: c2 :: c3 :: r => utf8Cont c1 && utf8Cont c2 && utf8Cont c3 && validUtf8Go fuel r
        | _ => false
      else if b = 244 then
        match rest with
        | c1 :: c2 :: c3 :: r =>
          (decide (128 ≤ c1) && decide (c1 ≤ 143)) && utf8Cont c2 && utf8Cont c3 &&
            validUtf8Go fuel r
        | _ => false
      else false

/-- Modelled from the spec: success of `String::from_utf8` (Rust std) on
a byte sequence. -/
def validUtf8 (l : List Nat) : Bool := validUtf8Go l.length l

/-- Modelled from the spec (§4.3 steps 1–2): `validate_command`
(`src/cmd/mod.rs`) checks the exact arity (name plus `nArgs` arguments)
and that element 0 is a BulkString equal, case-insensitively, to the
canonical lowercase command name. -/
def validate_command (v : List RespFrame) (name : List Nat) (nArgs : Nat) :
    Except CommandError Unit :=
  if v.length ≠ nArgs + 1 then
    .error (.InvalidArgument "wrong number of arguments")
  else
    match v with
    | RespFrame.BulkString cmd :: _ =>
      if lowerBytes cmd = name then .ok ()
      else .error (.InvalidArgument "unknown command name")
    | _ => .error (.InvalidArgument "command name must be a bulk string")

/-- Modelled from the spec: `extract_args` (`src/cmd/mod.rs`) skips the
command name and yields the remaining elements. -/
def extract_args (v : List RespFrame) (start : Nat) : List RespFrame :=
  v.drop start

/-- `impl TryFrom<RespArray> for HGet` (src/cmd/hmap.rs): validate
`hget`/arity 2, then both arguments must be BulkStrings holding valid
UTF-8. -/
def HGet.tryFrom (v : List RespFrame) : Except CommandError HGet :=
  match validate_command v [104, 103, 101, 116] 2 with
  | .error e => .error e
  | .ok _ =>
    match extract_args v 1 with
    | RespFrame.BulkString key :: RespFrame.BulkString f :: _ =>
      if validUtf8 key then
        if validUtf8 f then .ok ⟨key, f⟩
        else .error (.InvalidArgument "invalid utf-8 in field")
      else .error (.InvalidArgument "invalid utf-8 in key")
    | _ => .error (.InvalidArgument "Invalid key or field")

/-- `impl TryFrom<RespArray> for HGetAll` (src/cmd/hmap.rs). -/
def HGetAll.tryFrom (v : List RespFrame) : Except CommandError HGetAll :=
  match validate_command v [104, 103, 101, 116, 97, 108, 108] 1 with
  | .error e => .error e
  | .ok _ =>
    match extract_args v 1 with
    | RespFrame.BulkString key :: _ =>
      if validUtf8 key then .ok ⟨key⟩
      else .error (.InvalidArgument "invalid utf-8 in key")
    | _ => .error (.InvalidArgument "Invalid key")

/-- `impl TryFrom<RespArray> for HSet` (src/cmd/hmap.rs): key and field
must be BulkStrings; the value is kept as an arbitrary frame. -/
def HSet.tryFrom (v : List RespFrame) : Except CommandError HSet :=
  match validate_command v [104, 115, 101, 116] 3 with
  | .error e => .error e
  | .ok _ =>
    match extract_args v 1 with
    | RespFrame.BulkString key :: RespFrame.BulkString f :: value :: _ =>
      if validUtf8 key then
        if validUtf8 f then .ok ⟨key, f, value⟩
        else .error (.InvalidArgument "invalid utf-8 in field")
      else .error (.InvalidArgument "invalid utf-8 in key")
    | _ => .error (.InvalidArgument "Invalid key, field or value")

/-- A frame is a BulkString. -/
def RespFrame.isBulkString : RespFrame → Bool
  | .BulkString _ => true
  | _ => false

/-- Whether the byte right after the first `e` (101) is an explicit
`+`/`-` sign — the "explicit sign on the exponent" of the spec. -/
def expSigned (l : List Nat) : Bool :=
  match l.dropWhile (fun b => b != 101) with
  | 101 :: c :: _ => c == 43 || c == 45
  | _ => false

/-! ## Decoder

Modelled from the spec (§4.2): the decoder (`src/resp/decode.rs`) is not
under `src/`.  `decode(buffer)` reads the one-byte tag, requires a full
CRLF-terminated line for line-based scalars (else Incomplete), parses
length/count lines (ProtocolError when non-numeric and not `-1`), and
recursively decodes the declared number of sub-elements of compound
frames, propagating Incomplete/ProtocolError. -/

inductive DecodeResult where
  | Complete (f : RespFrame) (n : Nat)
  | Incomplete
  | ProtocolError

inductive DecodeListResult where
  | done (fs : List RespFrame) (n : Nat)
  | incomplete
  | err

inductive DecodePairsResult where
  | done (ps : List (List Nat × RespFrame)) (n : Nat)
  | incomplete
  | err

/-- The CRLF-terminated line at the start of the buffer (content and
bytes consumed); `none` when no full CRLF is present yet. -/
def readLine : List Nat → Option (List Nat × Nat)
  | [] => none
  | [_] => none
  | b :: c :: rest =>
    if b = 13 ∧ c = 10 then some ([], 2)
    else
      match readLine (c :: rest) with
      | some p => some (b :: p.1, p.2 + 1)
      | none => none

/-- Signed integer line parsing (`i64` lines). -/
def parseIntLine (l : List Nat) : Option Int :=
  match l with
  | [] => none
  | c :: rest =>
    if c = 45 then
      match parseNatDigits rest with
      | some n => some (-(n : Int))
      | none => none
    else if c = 43 then
      match parseNatDigits rest with
      | some n => some ((n : Int))
      | none => none
    else
      match parseNatDigits (c :: rest) with
      | some n => some ((n : Int))
      | none => none

/-- Split at the first occurrence of byte `t`: the part before it and,
when present, the part after it. -/
def splitAtByte (t : Nat) : List Nat → List Nat × Option (List Nat)
  | [] => ([], none)
  | c :: rest =>
    if c = t then ([], some rest)
    else (c :: (splitAtByte t rest).1, (splitAtByte t rest).2)

/-- Numeric-literal body of a Double line after the optional sign:
integer digits, optional `.` fraction, optional `e` signed exponent;
the resulting decimal is normalised. -/
def parseDecBody (neg : Bool) (l : List Nat) : Option Dec :=
  match parseNatDigits (splitAtByte 46 (splitAtByte 101 l).1).1 with
  | none => none
  | some iv =>
    match
      (match (splitAtByte 46 (splitAtByte 101 l).1).2 with
       | none => some ((0 : Nat), (0 : Nat))
       | some fr =>
         match parseNatDigits fr with
         | some fv => some (fv, fr.length)
         | none => none) with
    | none => none
    | some (fv, flen) =>
      match
        (match (splitAtByte 101 l).2 with
         | none => some (0 : Int)
         | some ex => parseIntLine ex) with
      | none => none
      | some x =>
        some (Dec.norm ⟨(if neg then -((iv * 10 ^ flen + fv : Nat) : Int)
            else ((iv * 10 ^ flen + fv : Nat) : Int)), x - (flen : Int)⟩)

/-- A Double line: optional sign, then the numeric literal. -/
def parseDecLine (l : List Nat) : Option Dec :=
  match l with
  | [] => none
  | c :: rest =>
    if c = 43 then parseDecBody false rest
    else if c = 45 then parseDecBody true rest
    else parseDecBody false (c :: rest)

/-- Decode `count` consecutive frames with the supplied head decoder. -/
def elemsGo (dec : List Nat → DecodeResult) : Nat → List Nat → DecodeListResult
  | 0, _ => .done [] 0
  | count + 1, buf =>
    match dec buf with
    | .Complete f n =>
      match elemsGo dec count (buf.drop n) with
      | .done fs m => .done (f :: fs) (n + m)
      | .incomplete => .incomplete
      | .err => .err
    | .Incomplete => .incomplete
    | .ProtocolError => .err

/-- Decode `count` consecutive (SimpleString key, value frame) pairs. -/
def pairsGo (dec : List Nat → DecodeResult) :
    Nat → List Nat → DecodePairsResult
  | 0, _ => .done [] 0
  | count + 1, buf =>
    match dec buf with
    | .Complete (.SimpleString k) n =>
      match dec (buf.drop n) with
      | .Complete v n2 =>
        match pairsGo dec count ((buf.drop n).drop n2) with
        | .done ps m => .done ((k, v) :: ps) (n + n2 + m)
        | .incomplete => .incomplete
        | .err => .err
      | .Incomplete => .incomplete
      | .ProtocolError => .err
    | .Complete _ _ => .err
    | .Incomplete => .incomplete
    | .ProtocolError => .err

/-- Fuel-indexed decoder; the fuel only bounds the nesting depth of
compound frames, every other step consumes buffer bytes. -/
def decodeFuel : Nat → List Nat → DecodeResult
  | 0, _ => .ProtocolError
  | fuel + 1, buf =>
    match buf with
    | [] => .Incomplete
    | tag :: rest =>
      if tag = 43 then
        match readLine rest with
        | none => .Incomplete
        | some (line, n) => .Complete (.SimpleString line) (n + 1)
      else if tag = 45 then
        match readLine rest with
        | none => .Incomplete
        | some (line, n) => .Complete (.SimpleError line) (n + 1)
      else if tag = 58 then
        match readLine rest with
        | none => .Incomplete
        | some (line, n) =>
          match parseIntLine line with
          | some i => .Complete (.Integer i) (n + 1)
          | none => .ProtocolError
      else if tag = 36 then
        match readLine rest with
        | none => .Incomplete
        | some (line, n) =>
          if line = [45, 49] then .Complete .NullBulkString (n + 1)
          else
            match parseNatDigits line with
            | none => .ProtocolError
            | some len =>
              if (rest.drop n).length < len + 2 then .Incomplete
              else if ((rest.drop n).drop len).take 2 = CRLF then
                .Complete (.BulkString ((rest.drop n).take len)) (n + 1 + len + 2)
              else .ProtocolError
      else if tag = 42 then
        match readLine rest with
        | none => .Incomplete
        | some (line, n) =>
          if line = [45, 49] then .Complete .NullArray (n + 1)
          else
            match parseNatDigits line with
            | none => .ProtocolError
            | some count =>
              match elemsGo (fun b => decodeFuel fuel b) count (rest.drop n) with
              | .done fs m => .Complete (.Array fs) (n + 1 + m)
              | .incomplete => .Incomplete
              | .err => .ProtocolError
      else if tag = 95 then
        match readLine rest with
        | none => .Incomplete
        | some (line, n) =>
          if line = [] then .Complete .Null (n + 1) else .ProtocolError
      else if tag = 35 then
        match readLine rest with
        | none => .Incomplete
        | some (line, n) =>
          if line = [116] then .Complete (.Boolean true) (n + 1)
          else if line = [102] then .Complete (.Boolean false) (n + 1)
          else .ProtocolError
      else if tag = 44 then
        match readLine rest with
        | none => .Incomplete
        | some (line, n) =>
          match parseDecLine line with
          | some dv => .Complete (.Double dv) (n + 1)
          | none => .ProtocolError
      else if tag = 37 then
        match readLine rest with
        | none => .Incomplete
        | some (line, n) =>
          match parseNatDigits line with
          | none => .ProtocolError
          | some count =>
            match pairsGo (fun b => decodeFuel fuel b) count (rest.drop n) with
            | .done ps m => .Complete (.Map ps) (n + 1 + m)
            | .incomplete => .Incomplete
            | .err => .ProtocolError
      else if tag = 126 then
        match readLine rest with
        | none => .Incomplete
        | some (line, n) =>
          match parseNatDigits line with
          | none => .ProtocolError
          | some count =>
            match elemsGo (fun b => decodeFuel fuel b) count (rest.drop n) with
            | .done fs m => .Complete (.Set fs) (n + 1 + m)
            | .incomplete => .Incomplete
            | .err => .ProtocolError
      else .ProtocolError

/-- `decode(buffer)`: the fuel `length + 1` dominates the nesting depth
of any frame the buffer can hold. -/
def decode (buf : List Nat) : DecodeResult := decodeFuel (buf.length + 1) buf

/-- A byte string free of CR and LF. -/
def noCRLF (s : List Nat) : Bool := !(s.contains 13) && !(s.contains 10)

/-! Representable frames: the data-model invariants of §3 — scalar
lines hold no CR/LF (SimpleString/SimpleError text and Map keys), and a
Double holds the normalised decimal its `f64` value determines. -/

mutual

def wfFrame : RespFrame → Bool
  | .SimpleString s => noCRLF s
  | .SimpleError s => noCRLF s
  | .Integer _ => true
  | .BulkString _ => true
  | .NullBulkString => true
  | .Array xs => wfList xs
  | .NullArray => true
  | .Null => true
  | .Boolean _ => true
  | .Double d => Dec.norm d == d
  | .Map ps => wfPairs ps
  | .Set xs => wfList xs

def wfList : List RespFrame → Bool
  | [] => true
  | x :: xs => wfFrame x && wfList xs

def wfPairs : List (List Nat × RespFrame) → Bool
  | [] => true
  | (k, v) :: ps => noCRLF k && wfFrame v && wfPairs ps

end

/-! # Theorems -/

/-! ## Digit rendering and parsing -/

theorem natDecGo_eq (fuel n : Nat) (acc : List Nat) (h : n ≤ fuel) :
    natDecGo fuel n acc = (Nat.digits 10 n).reverse.map (fun d => d + 48) ++ acc := by
  induction fuel generalizing n acc with
  | zero =>
    have : n = 0 := Nat.le_zero.mp h
    simp [natDecGo, this]
  | succ f ih =>
    by_cases hn : n = 0
    · simp [natDecGo, hn]
    · have hd : Nat.digits 10 n = n % 10 :: Nat.digits 10 (n / 10) :=
        Nat.digits_def' (by norm_num) (Nat.pos_of_ne_zero hn)
      have hle : n / 10 ≤ f := by
        have : n / 10 < n := Nat.div_lt_self (Nat.pos_of_ne_zero hn) (by norm_num)
        omega
      simp only [natDecGo, hn, if_false, ih (n / 10) _ hle, hd]
      simp

theorem natDec_eq_digits (n : Nat) :
    natDec n = if n = 0 then [48]
      else (Nat.digits 10 n).reverse.map (fun d => d + 48) := by
  unfold natDec
  split
  · rfl
  · rw [natDecGo_eq n n [] (le_refl n)]
    simp

theorem natDec_ne_nil (n : Nat) : natDec n ≠ [] := by
  rw [natDec_eq_digits]
  split
  · simp
  · intro h
    have : Nat.digits 10 n ≠ [] := Nat.digits_ne_nil_iff_ne_zero.mpr (by assumption)
    simp_all

theorem natDec_mem_range {n b : Nat} (hb : b ∈ natDec n) : 48 ≤ b ∧ b ≤ 57 := by
  rw [natDec_eq_digits] at hb
  split at hb
  · simp at hb; omega
  · simp only [List.mem_map, List.mem_reverse] at hb
    obtain ⟨d, hd, rfl⟩ := hb
    have : d < 10 := Nat.digits_lt_base (by norm_num) hd
    omega

theorem foldl_digits_general (l : List Nat) (a : Nat) :
    l.foldl (fun acc d => acc * 10 + d) a = a * 10 ^ l.length + digitsVal l := by
  induction l generalizing a with
  | nil => simp [digitsVal]
  | cons d rest ih =>
    simp only [List.foldl_cons, digitsVal] at *
    rw [ih (a * 10 + d), ih (0 * 10 + d)]
    simp only [List.length_cons, Nat.zero_mul, Nat.zero_add]
    ring

theorem digitsVal_append (l₁ l₂ : List Nat) :
    digitsVal (l₁ ++ l₂) = digitsVal l₁ * 10 ^ l₂.length + digitsVal l₂ := by
  unfold digitsVal
  rw [List.foldl_append]
  exact foldl_digits_general l₂ (digitsVal l₁)

theorem digitsVal_natDec (n : Nat) :
    digitsVal ((natDec n).map (fun b => b - 48)) = n := by
  rw [natDec_eq_digits]
  split
  · simp [digitsVal]; omega
  · have hmap : ((Nat.digits 10 n).reverse.map (fun d => d + 48)).map (fun b => b - 48)
        = (Nat.digits 10 n).reverse := by
      rw [List.map_map]
      have : ((fun b => b - 48) ∘ (fun d => d + 48)) = (id : Nat → Nat) := by
        funext d; simp
      rw [this, List.map_id]
    rw [hmap]
    unfold digitsVal
    rw [List.foldl_reverse]
    have : ∀ L : List Nat, L.foldr (fun x y => y * 10 + x) 0 = Nat.ofDigits 10 L := by
      intro L
      induction L with
      | nil => simp [Nat.ofDigits]
      | cons d rest ih => simp [Nat.ofDigits, ih]; ring
    rw [this]
    exact_mod_cast Nat.ofDigits_digits 10 n

theorem parseNatDigits_natDec (n : Nat) : parseNatDigits (natDec n) = some n := by
  unfold parseNatDigits
  rw [if_pos]
  · rw [digitsVal_natDec]
  · constructor
    · exact natDec_ne_nil n
    · rw [List.all_eq_true]
      intro b hb
      have := natDec_mem_range hb
      simp [isDigit]; omega

/-! ## The decimal model -/

theorem stripTensGo_spec (k : Nat) : ∀ fuel a, a ≠ 0 → a % 10 ≠ 0 →
    a * 10 ^ k ≤ fuel → stripTensGo fuel (a * 10 ^ k) = (a, k) := by
  induction k with
  | zero =>
    intro fuel a h0 h10 hle
    simp only [pow_zero, Nat.mul_one] at hle ⊢
    match fuel with
    | 0 => omega
    | f + 1 => simp [stripTensGo, h10]
  | succ j ih =>
    intro fuel a h0 h10 hle
    have hne : a * 10 ^ (j + 1) ≠ 0 := by positivity
    match fuel with
    | 0 => omega
    | f + 1 =>
      have hmod : a * 10 ^ (j + 1) % 10 = 0 := by
        have : (10 : Nat) ∣ a * 10 ^ (j + 1) := ⟨a * 10 ^ j, by ring⟩
        omega
      have hdiv : a * 10 ^ (j + 1) / 10 = a * 10 ^ j := by
        rw [pow_succ, ← Nat.mul_assoc]
        exact Nat.mul_div_cancel _ (by norm_num)
      have hfle : a * 10 ^ j ≤ f := by
        have hlt : a * 10 ^ j < a * 10 ^ (j + 1) := by
          have h1 : (10 : Nat) ^ j < 10 ^ (j + 1) :=
            Nat.pow_lt_pow_succ (by norm_num)
          exact mul_lt_mul_of_pos_left h1 (Nat.pos_of_ne_zero h0)
        omega
      simp only [stripTensGo, hne, hmod, and_true, not_false_iff, if_true]
      rw [hdiv, ih f a h0 h10 hfle]
      simp [hne]

theorem stripTens_mul_pow (a k : Nat) (h0 : a ≠ 0) (h10 : a % 10 ≠ 0) :
    stripTens (a * 10 ^ k) = (a, k) :=
  stripTensGo_spec k (a * 10 ^ k) a h0 h10 (le_refl _)

theorem Dec.norm_eq (mi e : Int) (a k : Nat) (ha : mi.natAbs = a * 10 ^ k)
    (h0 : a ≠ 0) (h10 : a % 10 ≠ 0) :
    Dec.norm ⟨mi, e⟩ = ⟨if mi < 0 then -(a : Int) else (a : Int), e + (k : Int)⟩ := by
  have hmi : mi ≠ 0 := by
    intro h
    rw [h] at ha
    simp only [Int.natAbs_zero] at ha
    have : a = 0 ∨ 10 ^ k = 0 := by
      rcases Nat.mul_eq_zero.mp ha.symm with h1 | h1
      · exact Or.inl h1
      · exact Or.inr h1
    rcases this with h1 | h1
    · exact h0 h1
    · exact absurd h1 (by positivity)
  unfold Dec.norm
  rw [if_neg hmi, ha, stripTens_mul_pow a k h0 h10]

theorem abs_ratCast_natAbs (m : ℤ) : |(m : ℚ)| = (m.natAbs : ℚ) := by
  rw [← Int.cast_abs, Int.abs_eq_natAbs, Int.cast_natCast]

theorem abs_toRat_nonneg_exp (d : Dec) (E : ℕ) (hE : d.e = (E : ℤ)) :
    |d.toRat| = ((d.m.natAbs * 10 ^ E : ℕ) : ℚ) := by
  unfold Dec.toRat
  rw [hE, abs_mul, zpow_natCast, abs_pow, abs_ratCast_natAbs]
  push_cast
  norm_num

theorem abs_toRat_neg_exp (d : Dec) (K : ℕ) (hK : d.e = -(K : ℤ)) :
    |d.toRat| = (d.m.natAbs : ℚ) / ((10 ^ K : ℕ) : ℚ) := by
  unfold Dec.toRat
  rw [hK, abs_mul, zpow_neg, zpow_natCast, abs_inv, abs_pow, abs_ratCast_natAbs]
  rw [div_eq_mul_inv]
  push_cast
  norm_num

theorem Dec.absGtBig_iff (d : Dec) :
    d.absGtBig = true ↔ 100000000 < |d.toRat| := by
  unfold Dec.absGtBig
  by_cases he : 0 ≤ d.e
  · rw [if_pos he]
    obtain ⟨E, hE⟩ := Int.eq_ofNat_of_zero_le he
    rw [abs_toRat_nonneg_exp d E hE]
    have h8 : (100000000 : ℚ) = ((10 ^ 8 : ℕ) : ℚ) := by norm_num
    rw [h8, Nat.cast_lt]
    have hEt : d.e.toNat = E := by omega
    simp [hEt]
  · rw [if_neg he]
    push_neg at he
    obtain ⟨K, hK⟩ : ∃ K : ℕ, -d.e = (K : ℤ) :=
      Int.eq_ofNat_of_zero_le (by omega)
    have hde : d.e = -(K : ℤ) := by omega
    rw [abs_toRat_neg_exp d K hde]
    rw [lt_div_iff₀ (by positivity)]
    have hc : (100000000 : ℚ) * ((10 ^ K : ℕ) : ℚ) =
        ((10 ^ 8 * 10 ^ K : ℕ) : ℚ) := by push_cast; norm_num
    rw [hc, Nat.cast_lt]
    have hKt : (-d.e).toNat = K := by omega
    simp [hKt]

theorem Dec.absLtSmall_iff (d : Dec) :
    d.absLtSmall = true ↔ |d.toRat| < 1 / 100000000 := by
  unfold Dec.absLtSmall
  by_cases he : 0 ≤ d.e
  · rw [if_pos he]
    obtain ⟨E, hE⟩ := Int.eq_ofNat_of_zero_le he
    rw [abs_toRat_nonneg_exp d E hE]
    rw [lt_div_iff₀ (by norm_num)]
    have hc : ((d.m.natAbs * 10 ^ E : ℕ) : ℚ) * 100000000 =
        ((d.m.natAbs * 10 ^ E * 10 ^ 8 : ℕ) : ℚ) := by push_cast; norm_num
    have hone : (1 : ℚ) = ((1 : ℕ) : ℚ) := by norm_num
    rw [hc, hone, Nat.cast_lt]
    have hEt : d.e.toNat = E := by omega
    simp [hEt]
  · rw [if_neg he]
    push_neg at he
    obtain ⟨K, hK⟩ : ∃ K : ℕ, -d.e = (K : ℤ) :=
      Int.eq_ofNat_of_zero_le (by omega)
    have hde : d.e = -(K : ℤ) := by omega
    rw [abs_toRat_neg_exp d K hde]
    rw [div_lt_div_iff₀ (by positivity) (by norm_num)]
    have hc : (d.m.natAbs : ℚ) * 100000000 =
        ((d.m.natAbs * 10 ^ 8 : ℕ) : ℚ) := by push_cast; norm_num
    have hone : (1 : ℚ) * ((10 ^ K : ℕ) : ℚ) = ((10 ^ K : ℕ) : ℚ) := by ring
    rw [hc, hone, Nat.cast_lt]
    have hKt : (-d.e).toNat = K := by omega
    simp [hKt]

/-! ## Encoder sanity checks, mirroring the tests in `src/resp/encode.rs` -/

/-- `test_simple_string_encode`: `+OK\r\n`. -/
theorem encode_simple_string_ok :
    encodeFrame (.SimpleString [79, 75]) = [43, 79, 75, 13, 10] := by decide

/-- `test_integer_encode`: `:+100\r\n` and `:-100\r\n`. -/
theorem encode_integer_examples :
    encodeFrame (.Integer 100) = [58, 43, 49, 48, 48, 13, 10] ∧
    encodeFrame (.Integer (-100)) = [58, 45, 49, 48, 48, 13, 10] := by decide

/-- `test_bulk_string_encode`: `$6\r\nfoobar\r\n`. -/
theorem encode_bulk_string_foobar :
    encodeFrame (.BulkString [102, 111, 111, 98, 97, 114]) =
      [36, 54, 13, 10, 102, 111, 111, 98, 97, 114, 13, 10] := by decide

/-- `test_double_encode`: `,+3.44\r\n`, `,-3.44\r\n`, `,+1.23456e8\r\n`,
`,-1.23456e-9\r\n`. -/
theorem encode_double_examples :
    encodeFrame (.Double ⟨344, -2⟩) = [44, 43, 51, 46, 52, 52, 13, 10] ∧
    encodeFrame (.Double ⟨-344, -2⟩) = [44, 45, 51, 46, 52, 52, 13, 10] ∧
    encodeFrame (.Double ⟨123456, 3⟩) =
      [44, 43, 49, 46, 50, 51, 52, 53, 54, 101, 56, 13, 10] ∧
    encodeFrame (.Double ⟨-123456, -14⟩) =
      [44, 45, 49, 46, 50, 51, 52, 53, 54, 101, 45, 57, 13, 10] := by decide

/-! ## The key order and sorted insertion -/

theorem bytesLt_asymm (a : List Nat) : ∀ b, bytesLt a b = true → bytesLt b a = false := by
  induction a with
  | nil =>
    intro b h
    cases b with
    | nil => simp [bytesLt] at h
    | cons y ys => simp [bytesLt]
  | cons x xs ih =>
    intro b h
    cases b with
    | nil => simp [bytesLt] at h
    | cons y ys =>
      simp only [bytesLt] at h ⊢
      by_cases h1 : x < y
      · have h2 : ¬ y < x := by omega
        have h3 : ¬ y = x := by omega
        simp [h2, h3]
      · by_cases h2 : x = y
        · subst h2
          rw [if_neg (Nat.lt_irrefl x), if_pos rfl] at h ⊢
          exact ih ys h
        · simp [h1, h2] at h

theorem bytesLt_trans (a : List Nat) :
    ∀ b c, bytesLt a b = true → bytesLt b c = true → bytesLt a c = true := by
  induction a with
  | nil =>
    intro b c hab hbc
    cases b with
    | nil => simp [bytesLt] at hab
    | cons y ys =>
      cases c with
      | nil => simp [bytesLt] at hbc
      | cons z zs => simp [bytesLt]
  | cons x xs ih =>
    intro b c hab hbc
    cases b with
    | nil => simp [bytesLt] at hab
    | cons y ys =>
      cases c with
      | nil => simp [bytesLt] at hbc
      | cons z zs =>
        simp only [bytesLt] at hab hbc ⊢
        by_cases h1 : x < y
        · by_cases h2 : y < z
          · rw [if_pos (by omega : x < z)]
          · by_cases h3 : y = z
            · rw [if_pos (by omega : x < z)]
            · simp [h2, h3] at hbc
        · by_cases h2 : x = y
          · subst h2
            rw [if_neg h1, if_pos rfl] at hab
            by_cases h3 : x < z
            · rw [if_pos h3]
            · by_cases h4 : x = z
              · subst h4
                rw [if_neg h3, if_pos rfl] at hbc ⊢
                exact ih ys zs hab hbc
              · simp [h3, h4] at hbc
          · simp [h1, h2] at hab

theorem bytesLt_connex (a : List Nat) :
    ∀ b, a ≠ b → bytesLt a b = true ∨ bytesLt b a = true := by
  induction a with
  | nil =>
    intro b hne
    cases b with
    | nil => exact absurd rfl hne
    | cons y ys => left; simp [bytesLt]
  | cons x xs ih =>
    intro b hne
    cases b with
    | nil => right; simp [bytesLt]
    | cons y ys =>
      by_cases hxy : x = y
      · subst hxy
        have hne' : xs ≠ ys := by intro h; exact hne (by rw [h])
        rcases ih ys hne' with h | h
        · left; simp [bytesLt, h]
        · right; simp [bytesLt, h]
      · rcases Nat.lt_or_ge x y with h | h
        · left; simp [bytesLt, h]
        · have : y < x := by omega
          right; simp [bytesLt, this]

theorem mem_insertPair_sub (k : List Nat) (v : RespFrame) :
    ∀ l p, p ∈ insertPair k v l → p = (k, v) ∨ p ∈ l := by
  intro l
  induction l with
  | nil => intro p hp; simp [insertPair] at hp; exact Or.inl hp
  | cons q rest ih =>
    intro p hp
    obtain ⟨k', v'⟩ := q
    simp only [insertPair] at hp
    split_ifs at hp with h1 h2
    · rw [List.mem_cons] at hp
      rcases hp with h | h
      · exact Or.inl h
      · exact Or.inr h
    · rw [List.mem_cons] at hp
      rcases hp with h | h
      · exact Or.inl h
      · exact Or.inr (List.mem_cons_of_mem _ h)
    · rw [List.mem_cons] at hp
      rcases hp with h | h
      · exact Or.inr (h ▸ List.mem_cons_self _ _)
      · rcases ih p h with h' | h'
        · exact Or.inl h'
        · exact Or.inr (List.mem_cons_of_mem _ h')

theorem insertPair_pairwise (k : List Nat) (v : RespFrame) :
    ∀ l, l.Pairwise pairLt → (insertPair k v l).Pairwise pairLt := by
  intro l
  induction l with
  | nil => intro _; simp [insertPair, pairLt]
  | cons q rest ih =>
    intro hl
    obtain ⟨k', v'⟩ := q
    rw [List.pairwise_cons] at hl
    obtain ⟨hq, hrest⟩ := hl
    simp only [insertPair]
    split_ifs with h1 h2
    · rw [List.pairwise_cons]
      refine ⟨?_, List.pairwise_cons.mpr ⟨hq, hrest⟩⟩
      intro p hp
      rcases List.mem_cons.mp hp with h | h
      · subst h; exact h1
      · exact bytesLt_trans k k' p.1 h1 (hq p h)
    · subst h2
      rw [List.pairwise_cons]
      exact ⟨hq, hrest⟩
    · rw [List.pairwise_cons]
      constructor
      · intro p hp
        rcases mem_insertPair_sub k v rest p hp with h | h
        · subst h
          rcases bytesLt_connex k k' h2 with h' | h'
          · exact absurd h' h1
          · exact h'
        · exact hq p h
      · exact ih hrest

theorem insertPair_perm (k : List Nat) (v : RespFrame) :
    ∀ l, k ∉ l.map Prod.fst → (insertPair k v l).Perm ((k, v) :: l) := by
  intro l
  induction l with
  | nil => intro _; simp [insertPair]
  | cons q rest ih =>
    intro hk
    obtain ⟨k', v'⟩ := q
    simp only [List.map_cons, List.mem_cons] at hk
    push_neg at hk
    obtain ⟨hkk', hkrest⟩ := hk
    by_cases h1 : bytesLt k k' = true
    · simp only [insertPair, if_pos h1]
      exact List.Perm.refl _
    · simp only [insertPair, if_neg h1, if_neg hkk']
      exact (List.Perm.cons _ (ih hkrest)).trans (List.Perm.swap _ _ _)

theorem foldl_insertPair_perm :
    ∀ (l m : List (List Nat × RespFrame)),
      (l.map Prod.fst).Nodup → (∀ p ∈ l, p.1 ∉ m.map Prod.fst) →
      (l.foldl (fun acc p => insertPair p.1 p.2 acc) m).Perm (l ++ m) := by
  intro l
  induction l with
  | nil => intro m _ _; simp
  | cons q rest ih =>
    intro m hnd hdisj
    obtain ⟨k0, v0⟩ := q
    simp only [List.map_cons, List.nodup_cons] at hnd
    obtain ⟨hk0, hndrest⟩ := hnd
    have hk0m : k0 ∉ m.map Prod.fst := hdisj (k0, v0) (List.mem_cons_self _ _)
    have hperm : (insertPair k0 v0 m).Perm ((k0, v0) :: m) := insertPair_perm k0 v0 m hk0m
    have hkeys : ((insertPair k0 v0 m).map Prod.fst).Perm (k0 :: m.map Prod.fst) :=
      hperm.map Prod.fst
    have hdisj' : ∀ p ∈ rest, p.1 ∉ (insertPair k0 v0 m).map Prod.fst := by
      intro p hp hmem
      have : p.1 ∈ k0 :: m.map Prod.fst := hkeys.mem_iff.mp hmem
      rcases List.mem_cons.mp this with h | h
      · exact hk0 (h ▸ List.mem_map_of_mem Prod.fst hp)
      · exact hdisj p (List.mem_cons_of_mem _ hp) h
    have hfold := ih (insertPair k0 v0 m) hndrest hdisj'
    simp only [List.foldl_cons]
    exact hfold.trans ((List.Perm.append_left rest hperm).trans List.perm_middle)

theorem mapOfInserts_pairwise (l : List (List Nat × RespFrame)) :
    (mapOfInserts l).Pairwise pairLt := by
  unfold mapOfInserts
  suffices h : ∀ m : List (List Nat × RespFrame), m.Pairwise pairLt →
      (l.foldl (fun acc p => insertPair p.1 p.2 acc) m).Pairwise pairLt by
    exact h [] (by simp)
  induction l with
  | nil => intro m hm; simpa
  | cons q rest ih =>
    intro m hm
    simp only [List.foldl_cons]
    exact ih _ (insertPair_pairwise q.1 q.2 m hm)

theorem mapOfInserts_perm (l : List (List Nat × RespFrame))
    (hnd : (l.map Prod.fst).Nodup) : (mapOfInserts l).Perm l := by
  unfold mapOfInserts
  have := foldl_insertPair_perm l [] hnd (by simp)
  simpa using this

/-! ## Backend association-list lemmas -/

theorem assocGet_put_self {α : Type} (k : List Nat) (v : α) :
    ∀ l, assocGet k (assocPut k v l) = some v := by
  intro l
  induction l with
  | nil => simp [assocGet, assocPut]
  | cons q rest ih =>
    obtain ⟨k', v'⟩ := q
    simp only [assocPut]
    split_ifs with h
    · simp [assocGet]
    · simp only [assocGet]
      rw [if_neg h]
      exact ih

theorem assocGet_put_other {α : Type} (k k' : List Nat) (v : α) (hne : k ≠ k') :
    ∀ l, assocGet k (assocPut k' v l) = assocGet k l := by
  intro l
  induction l with
  | nil => simp [assocGet, assocPut, hne]
  | cons q rest ih =>
    obtain ⟨k'', v''⟩ := q
    simp only [assocPut]
    split_ifs with h
    · subst h
      simp only [assocGet]
      rw [if_neg hne, if_neg hne]
    · simp only [assocGet]
      split_ifs with h2
      · rfl
      · exact ih

theorem Backend.hget_hset_same (b : Backend) (k f : List Nat) (v : RespFrame) :
    (b.hset k f v).hget k f = some v := by
  unfold Backend.hget Backend.hset
  cases hb : assocGet k b.hmap with
  | none =>
    simp only
    rw [assocGet_put_self]
    simp [assocGet]
  | some fields =>
    simp only
    rw [assocGet_put_self]
    simp only
    rw [assocGet_put_self]

theorem Backend.hget_hset_other_field (b : Backend) (k f1 f2 : List Nat)
    (v : RespFrame) (hne : f1 ≠ f2) :
    (b.hset k f2 v).hget k f1 = b.hget k f1 := by
  unfold Backend.hget Backend.hset
  cases hb : assocGet k b.hmap with
  | none =>
    simp only
    rw [assocGet_put_self]
    simp [assocGet, hne]
  | some fields =>
    simp only
    rw [assocGet_put_self]
    simp only
    rw [assocGet_put_other f1 f2 v hne]

/-! ## Claim theorems -/

/-- C1: for every key `k`, field `f` and frame value `v`, executing
`HSet{k, f, v}` against a backend and then executing `HGet{k, f}`
against the same (updated) backend returns exactly `v`. -/
theorem hset_then_hget_returns_value (k f : List Nat) (v : RespFrame) (b : Backend) :
    HGet.execute ⟨k, f⟩ (HSet.execute ⟨k, f, v⟩ b).2 = v := by
  unfold HGet.execute HSet.execute
  rw [Backend.hget_hset_same]

/-- C3: executing `HGet{k, f}` replies the Null frame when `k` is absent
from the HashStore or `f` is absent within `k`'s nested mapping, and
otherwise replies the frame stored for `(k, f)`. -/
theorem hget_null_or_stored (k f : List Nat) (b : Backend) :
    ((assocGet k b.hmap = none ∨
      ∃ fields, assocGet k b.hmap = some fields ∧ assocGet f fields = none) →
        HGet.execute ⟨k, f⟩ b = RespFrame.Null) ∧
    (∀ fields v, assocGet k b.hmap = some fields → assocGet f fields = some v →
        HGet.execute ⟨k, f⟩ b = v) := by
  constructor
  · intro h
    unfold HGet.execute Backend.hget
    rcases h with h | ⟨fields, h1, h2⟩
    · rw [h]
    · rw [h1]
      simp only
      rw [h2]
  · intro fields v h1 h2
    unfold HGet.execute Backend.hget
    rw [h1]
    simp only
    rw [h2]

/-- Witness for C3: in a store holding `(k "k", f "f") ↦ Integer 7`,
`HGet` replies the stored frame, and on the empty store it replies Null. -/
theorem hget_null_or_stored_witness :
    HGet.execute ⟨[107], [102]⟩ ⟨[([107], [([102], RespFrame.Integer 7)])]⟩ =
      RespFrame.Integer 7 ∧
    HGet.execute ⟨[107], [102]⟩ ⟨[]⟩ = RespFrame.Null := by
  constructor
  · exact (hget_null_or_stored [107] [102]
      ⟨[([107], [([102], RespFrame.Integer 7)])]⟩).2
      [([102], RespFrame.Integer 7)] (RespFrame.Integer 7) rfl rfl
  · exact (hget_null_or_stored [107] [102] ⟨[]⟩).1 (Or.inl rfl)

/-- C4: executing `HSet{k, f, v}` replies the canonical OK
simple-string, whose encoding is exactly the bytes `+OK\r\n`, regardless
of the prior contents of the backend. -/
theorem hset_replies_ok (k f : List Nat) (v : RespFrame) (b : Backend) :
    (HSet.execute ⟨k, f, v⟩ b).1 = RESP_OK ∧
    RESP_OK = RespFrame.SimpleString [79, 75] ∧
    encodeFrame RESP_OK = [43, 79, 75, 13, 10] :=
  ⟨rfl, rfl, rfl⟩

/-- C5: writing one field leaves sibling fields of the same key
unchanged: after `HSet{k, f1, v1}` then `HSet{k, f2, v2}` with
`f1 ≠ f2`, `HGet{k, f1}` still returns `v1`. -/
theorem hset_sibling_isolation (k f1 f2 : List Nat) (v1 v2 : RespFrame)
    (b : Backend) (hne : f1 ≠ f2) :
    HGet.execute ⟨k, f1⟩
      (HSet.execute ⟨k, f2, v2⟩ (HSet.execute ⟨k, f1, v1⟩ b).2).2 = v1 := by
  unfold HGet.execute HSet.execute
  rw [Backend.hget_hset_other_field _ _ _ _ _ hne, Backend.hget_hset_same]

/-- Witness for C5: the scenario of `test_hset_hget_hgetall_command`,
fields `f1 ≠ f2` on key `k1`. -/
theorem hset_sibling_isolation_witness :
    HGet.execute ⟨[107, 49], [102, 49]⟩
      (HSet.execute ⟨[107, 49], [102, 50], RespFrame.Integer 2⟩
        (HSet.execute ⟨[107, 49], [102, 49], RespFrame.Integer 1⟩ ⟨[]⟩).2).2 =
      RespFrame.Integer 1 :=
  hset_sibling_isolation [107, 49] [102, 49] [102, 50]
    (RespFrame.Integer 1) (RespFrame.Integer 2) ⟨[]⟩ (by decide)

/-- C2: `HGetAll{k}` replies a Map frame holding exactly the stored
(field, value) pairs when `k` is present, and an empty Array frame when
`k` is absent. -/
theorem hgetall_map_or_empty_array (k : List Nat) (b : Backend) :
    (assocGet k b.hmap = none → HGetAll.execute ⟨k⟩ b = RespFrame.Array []) ∧
    (∀ fields, assocGet k b.hmap = some fields →
      (fields.map Prod.fst).Nodup →
      ∃ pairs, HGetAll.execute ⟨k⟩ b = RespFrame.Map pairs ∧
        ∀ p : List Nat × RespFrame, p ∈ pairs ↔ p ∈ fields) := by
  constructor
  · intro h
    unfold HGetAll.execute
    rw [h]
  · intro fields h hnd
    unfold HGetAll.execute
    rw [h]
    refine ⟨mapOfInserts fields, rfl, ?_⟩
    intro p
    exact (mapOfInserts_perm fields hnd).mem_iff

/-- Witness for C2: a store with one key holding one field replies the
singleton Map; the empty store replies the empty Array. -/
theorem hgetall_map_or_empty_array_witness :
    (∃ pairs, HGetAll.execute ⟨[107]⟩ ⟨[([107], [([102], RespFrame.Integer 5)])]⟩ =
        RespFrame.Map pairs ∧
      ∀ p : List Nat × RespFrame, p ∈ pairs ↔ p ∈ [([102], RespFrame.Integer 5)]) ∧
    HGetAll.execute ⟨[107]⟩ ⟨[]⟩ = RespFrame.Array [] := by
  constructor
  · exact (hgetall_map_or_empty_array [107]
      ⟨[([107], [([102], RespFrame.Integer 5)])]⟩).2
      [([102], RespFrame.Integer 5)] rfl (by decide)
  · exact (hgetall_map_or_empty_array [107] ⟨[]⟩).1 rfl

/-- C10: encoding a RespMap emits its pairs in ascending lexicographic
key order, independent of insertion order; in particular the
`test_map_encode` scenario (insert "foo" then "bar") encodes "bar"
first, as `%2\r\n+bar\r\n,-1234.678\r\n+foo\r\n+bar\r\n`. -/
theorem respMap_encode_sorted_insertion_order_independent :
    (∀ l : List (List Nat × RespFrame), (mapOfInserts l).Pairwise pairLt) ∧
    (∀ l l' : List (List Nat × RespFrame),
      l.Perm l' → (l.map Prod.fst).Nodup → mapOfInserts l = mapOfInserts l') ∧
    encodeFrame (.Map (mapOfInserts
      [([102, 111, 111], .SimpleString [98, 97, 114]),
       ([98, 97, 114], .Double ⟨-1234678, -3⟩)])) =
      [37, 50, 13, 10,
       43, 98, 97, 114, 13, 10,
       44, 45, 49, 50, 51, 52, 46, 54, 55, 56, 13, 10,
       43, 102, 111, 111, 13, 10,
       43, 98, 97, 114, 13, 10] := by
  refine ⟨mapOfInserts_pairwise, ?_, by decide⟩
  intro l l' hperm hnd
  have hnd' : (l'.map Prod.fst).Nodup := (hperm.map Prod.fst).nodup_iff.mp hnd
  have h1 : (mapOfInserts l).Perm l := mapOfInserts_perm l hnd
  have h2 : (mapOfInserts l').Perm l' := mapOfInserts_perm l' hnd'
  have hp : (mapOfInserts l).Perm (mapOfInserts l') := h1.trans (hperm.trans h2.symm)
  haveI : IsAntisymm (List Nat × RespFrame) pairLt := ⟨by
    intro p q hpq hqp
    have h := bytesLt_asymm p.1 q.1 hpq
    rw [hqp] at h
    exact absurd h (by simp)⟩
  exact List.eq_of_perm_of_sorted hp (mapOfInserts_pairwise l) (mapOfInserts_pairwise l')

/-- Witness for C10: inserting ("foo", then "bar") and ("bar", then
"foo") produce the same map. -/
theorem respMap_insertion_order_independent_witness :
    mapOfInserts [([102, 111, 111], RespFrame.Null), ([98, 97, 114], RespFrame.Null)] =
    mapOfInserts [([98, 97, 114], RespFrame.Null), ([102, 111, 111], RespFrame.Null)] :=
  respMap_encode_sorted_insertion_order_independent.2.1 _ _
    (List.Perm.swap _ _ _) (by decide)

theorem validate_command_ok_shape (v : List RespFrame) (name : List Nat) (nArgs : Nat)
    (u : Unit) (h : validate_command v name nArgs = .ok u) :
    v.length = nArgs + 1 ∧ ∃ cmd tail, v = RespFrame.BulkString cmd :: tail := by
  unfold validate_command at h
  split at h
  · exact absurd h (by simp)
  · next hlen =>
    split at h
    · next cmd tail =>
      split at h
      · exact ⟨by push_neg at hlen; exact hlen, cmd, tail, rfl⟩
      · exact absurd h (by simp)
    · exact absurd h (by simp)

theorem HGet.tryFrom_bulk_args (l : List RespFrame) (c : HGet)
    (h : HGet.tryFrom l = .ok c) : ∀ fr ∈ l, fr.isBulkString = true := by
  unfold HGet.tryFrom at h
  split at h
  · exact absurd h (by simp)
  · next u heq =>
    obtain ⟨hlen, cmd, tail, hv⟩ := validate_command_ok_shape _ _ _ u heq
    split at h
    · next key f tail2 heq2 =>
      unfold extract_args at heq2
      subst hv
      simp only [List.drop_succ_cons, List.drop_zero] at heq2
      subst heq2
      simp only [List.length_cons, List.length_cons, List.length_cons] at hlen
      have : tail2.length = 0 := by simpa using hlen
      rw [List.length_eq_zero] at this
      subst this
      intro fr hfr
      rcases List.mem_cons.mp hfr with h1 | hfr
      · subst h1; rfl
      rcases List.mem_cons.mp hfr with h1 | hfr
      · subst h1; rfl
      rcases List.mem_cons.mp hfr with h1 | hfr
      · subst h1; rfl
      · simp at hfr
    · exact absurd h (by simp)

theorem HGetAll.tryFrom_bulk_only (l : List RespFrame) (c : HGetAll)
    (h : HGetAll.tryFrom l = .ok c) : ∀ fr ∈ l, fr.isBulkString = true := by
  unfold HGetAll.tryFrom at h
  split at h
  · exact absurd h (by simp)
  · next u heq =>
    obtain ⟨hlen, cmd, tail, hv⟩ := validate_command_ok_shape _ _ _ u heq
    split at h
    · next key tail2 heq2 =>
      unfold extract_args at heq2
      subst hv
      simp only [List.drop_succ_cons, List.drop_zero] at heq2
      subst heq2
      simp only [List.length_cons] at hlen
      have : tail2.length = 0 := by simpa using hlen
      rw [List.length_eq_zero] at this
      subst this
      intro fr hfr
      rcases List.mem_cons.mp hfr with h1 | hfr
      · subst h1; rfl
      rcases List.mem_cons.mp hfr with h1 | hfr
      · subst h1; rfl
      · simp at hfr
    · exact absurd h (by simp)

theorem HSet.tryFrom_bulk_kf (l : List RespFrame) (c : HSet)
    (h : HSet.tryFrom l = .ok c) : ∀ fr ∈ l.take 3, fr.isBulkString = true := by
  unfold HSet.tryFrom at h
  split at h
  · exact absurd h (by simp)
  · next u heq =>
    obtain ⟨hlen, cmd, tail, hv⟩ := validate_command_ok_shape _ _ _ u heq
    split at h
    · next key f value tail2 heq2 =>
      unfold extract_args at heq2
      subst hv
      simp only [List.drop_succ_cons, List.drop_zero] at heq2
      subst heq2
      intro fr hfr
      simp only [List.take_succ_cons, List.take_zero] at hfr
      rcases List.mem_cons.mp hfr with h1 | hfr
      · subst h1; rfl
      rcases List.mem_cons.mp hfr with h1 | hfr
      · subst h1; rfl
      rcases List.mem_cons.mp hfr with h1 | hfr
      · subst h1; rfl
      · simp at hfr
    · exact absurd h (by simp)

/-- Counterexample to C6 as stated: `HSET`'s value argument is *not*
required to be a BulkString — parsing `[hset, k, f, Integer 5]`
succeeds even though `Integer 5` is not a BulkString frame. -/
theorem hset_tryFrom_accepts_nonbulk_value :
    (RespFrame.Integer 5).isBulkString = false ∧
    HSet.tryFrom [RespFrame.BulkString [104, 115, 101, 116],
      RespFrame.BulkString [107], RespFrame.BulkString [102],
      RespFrame.Integer 5] =
      Except.ok ⟨[107], [102], RespFrame.Integer 5⟩ :=
  ⟨rfl, rfl⟩

/-- C6 (amended): for `HGet` and `HGetAll` every element, and for `HSet`
every element except the value argument (position 3), must be a
BulkString; a violation makes parsing fail with an InvalidArgument
CommandError. -/
theorem command_parse_nonbulk_fails :
    (∀ l, (∃ fr ∈ l, fr.isBulkString = false) →
      ∃ m, HGet.tryFrom l = .error (.InvalidArgument m)) ∧
    (∀ l, (∃ fr ∈ l, fr.isBulkString = false) →
      ∃ m, HGetAll.tryFrom l = .error (.InvalidArgument m)) ∧
    (∀ l, (∃ fr ∈ l.take 3, fr.isBulkString = false) →
      ∃ m, HSet.tryFrom l = .error (.InvalidArgument m)) := by
  refine ⟨?_, ?_, ?_⟩
  · rintro l ⟨fr, hfr, hnb⟩
    cases hres : HGet.tryFrom l with
    | ok c =>
      have := HGet.tryFrom_bulk_args l c hres fr hfr
      rw [this] at hnb
      exact absurd hnb (by simp)
    | error e =>
      cases e with
      | InvalidArgument m => exact ⟨m, rfl⟩
  · rintro l ⟨fr, hfr, hnb⟩
    cases hres : HGetAll.tryFrom l with
    | ok c =>
      have := HGetAll.tryFrom_bulk_only l c hres fr hfr
      rw [this] at hnb
      exact absurd hnb (by simp)
    | error e =>
      cases e with
      | InvalidArgument m => exact ⟨m, rfl⟩
  · rintro l ⟨fr, hfr, hnb⟩
    cases hres : HSet.tryFrom l with
    | ok c =>
      have := HSet.tryFrom_bulk_kf l c hres fr hfr
      rw [this] at hnb
      exact absurd hnb (by simp)
    | error e =>
      cases e with
      | InvalidArgument m => exact ⟨m, rfl⟩

/-- Witness for the amended C6: `HGET` given a lone Integer element
fails with InvalidArgument. -/
theorem command_parse_nonbulk_fails_witness :
    ∃ m, HGet.tryFrom [RespFrame.Integer 5] =
      Except.error (CommandError.InvalidArgument m) :=
  command_parse_nonbulk_fails.1 [RespFrame.Integer 5]
    ⟨RespFrame.Integer 5, List.mem_cons_self _ _, rfl⟩

/-! ## Branch structure of the double encoder -/

theorem exists_strip (n : Nat) (h : n ≠ 0) :
    ∃ a k, n = a * 10 ^ k ∧ a ≠ 0 ∧ a % 10 ≠ 0 := by
  induction n using Nat.strong_induction_on with
  | _ n ih =>
    by_cases h10 : n % 10 = 0
    · have hn10 : n / 10 ≠ 0 := by omega
      have hlt : n / 10 < n := Nat.div_lt_self (Nat.pos_of_ne_zero h) (by norm_num)
      obtain ⟨a, k, heq, ha, ha10⟩ := ih (n / 10) hlt hn10
      refine ⟨a, k + 1, ?_, ha, ha10⟩
      rw [pow_succ, ← Nat.mul_assoc, ← heq]
      omega
    · exact ⟨n, 0, by simp, h, h10⟩

theorem stripTens_spec (n : Nat) (h : n ≠ 0) :
    (stripTens n).1 ≠ 0 ∧ (stripTens n).1 % 10 ≠ 0 ∧
      n = (stripTens n).1 * 10 ^ (stripTens n).2 := by
  obtain ⟨a, k, heq, ha, ha10⟩ := exists_strip n h
  rw [heq, stripTens_mul_pow a k ha ha10]
  exact ⟨ha, ha10, rfl⟩

theorem Dec.norm_m_pos_facts (d : Dec) (hm : d.m ≠ 0) :
    (Dec.norm d).m ≠ 0 ∧ ((Dec.norm d).m < 0 ↔ d.m < 0) := by
  unfold Dec.norm
  rw [if_neg hm]
  obtain ⟨ha, _, _⟩ := stripTens_spec d.m.natAbs (by simpa using hm)
  have hapos : 0 < ((stripTens d.m.natAbs).1 : Int) := by exact_mod_cast Nat.pos_of_ne_zero ha
  by_cases hneg : d.m < 0
  · simp only [if_pos hneg]
    constructor
    · omega
    · constructor
      · intro _; exact hneg
      · intro _; omega
  · simp only [if_neg hneg]
    constructor
    · omega
    · constructor
      · intro h'; omega
      · intro h'; exact absurd h' hneg

theorem Dec.absLtSmall_of_m_zero (d : Dec) (hm : d.m = 0) :
    d.absLtSmall = true := by
  unfold Dec.absLtSmall
  rw [hm]
  split_ifs
  · simp
  · simp

theorem fmtDisplay_le (d : Dec) : ∀ b ∈ fmtDisplay d, b ≤ 57 := by
  have hds : ∀ b ∈ natDec (Dec.norm d).m.natAbs, b ≤ 57 :=
    fun b hb => (natDec_mem_range hb).2
  have hrep : ∀ n, ∀ b ∈ List.replicate n 48, b ≤ (57 : Nat) := by
    intro n b hb
    rw [List.mem_replicate] at hb
    omega
  unfold fmtDisplay
  rw [List.forall_mem_append]
  constructor
  · intro b hb
    split_ifs at hb <;> simp_all
  · split_ifs with h1 h2
    · rw [List.forall_mem_append]
      exact ⟨hds, hrep _⟩
    · rw [List.forall_mem_append]
      refine ⟨fun b hb => hds b (List.mem_of_mem_take hb), ?_⟩
      intro b hb
      rw [List.mem_cons] at hb
      rcases hb with hb | hb
      · omega
      · exact hds b (List.mem_of_mem_drop hb)
    · rw [List.forall_mem_append]
      refine ⟨?_, hds⟩
      rw [List.forall_mem_append]
      refine ⟨?_, hrep _⟩
      intro b hb
      simp at hb
      omega

theorem fmtExpPlus_structure (d : Dec) :
    ∃ s mant ex, fmtExpPlus d = s :: (mant ++ 101 :: intDec ex) ∧
      (s = 43 ∨ s = 45) ∧
      (s = 45 ↔ (Dec.norm d).m < 0) ∧
      (∀ b ∈ mant, b ≤ 57) := by
  refine ⟨if (Dec.norm d).m < 0 then 45 else 43,
    (natDec (Dec.norm d).m.natAbs).take 1 ++
      (if (natDec (Dec.norm d).m.natAbs).length ≤ 1 then []
       else 46 :: (natDec (Dec.norm d).m.natAbs).drop 1),
    (Dec.norm d).e + (((natDec (Dec.norm d).m.natAbs).length - 1 : Nat) : Int),
    ?_, ?_, ?_, ?_⟩
  · unfold fmtExpPlus
    split_ifs <;> simp [List.append_assoc]
  · split_ifs
    · exact Or.inr rfl
    · exact Or.inl rfl
  · split_ifs with h
    · simp [h]
    · simp [h]
  · intro b hb
    rw [List.mem_append] at hb
    rcases hb with hb | hb
    · exact (natDec_mem_range (List.mem_of_mem_take hb)).2
    · split_ifs at hb with h
      · simp at hb
      · rw [List.mem_cons] at hb
        rcases hb with hb | hb
        · omega
        · exact (natDec_mem_range (List.mem_of_mem_drop hb)).2

theorem mem_101_fmtExpPlus (d : Dec) : 101 ∈ fmtExpPlus d := by
  obtain ⟨s, mant, ex, heq, _, _, _⟩ := fmtExpPlus_structure d
  rw [heq]
  simp

theorem intDec_head_neg_iff (i : Int) :
    (intDec i).head? = some 45 ↔ i < 0 := by
  unfold intDec
  split_ifs with h
  · simp [h]
  · constructor
    · intro hh
      rcases hds : natDec i.natAbs with _ | ⟨d1, rest⟩
      · exact absurd hds (natDec_ne_nil _)
      · rw [hds] at hh
        simp only [List.head?_cons, Option.some.injEq] at hh
        have : d1 ∈ natDec i.natAbs := by rw [hds]; exact List.mem_cons_self _ _
        have := natDec_mem_range this
        omega
    · intro hh; exact absurd hh h

theorem intDec_digits_of_nonneg (i : Int) (h : 0 ≤ i) :
    ∀ b ∈ intDec i, isDigit b = true := by
  intro b hb
  unfold intDec at hb
  rw [if_neg (by omega)] at hb
  have := natDec_mem_range hb
  simp [isDigit]
  omega

/-- Counterexample to C7 as stated: `0.0` satisfies `|v| < 1e-8` with no
nonzero guard in the code, so it is rendered in scientific notation as
`,+0e0\r\n`, not as the fixed-point `,+0\r\n` the claim requires. -/
theorem double_zero_scientific_counterexample :
    Dec.toRat ⟨0, 0⟩ = 0 ∧
    encodeFrame (.Double ⟨0, 0⟩) = [44, 43, 48, 101, 48, 13, 10] ∧
    encodeFrame (.Double ⟨0, 0⟩) ≠ [44, 43, 48, 13, 10] := by
  refine ⟨?_, by decide, by decide⟩
  unfold Dec.toRat
  norm_num

/-- C7 (amended): `encode(v)` renders in scientific notation exactly
when `|v| > 1e8` or `|v| < 1e-8` — zero included, so
`encode(0.0) = ",+0e0\r\n"`; otherwise fixed-point with a leading
explicit sign; always prefixed with `,` and terminated with CRLF. -/
theorem double_encode_branch_characterization (d : Dec) :
    encodeFrame (.Double d) = 44 :: doubleBody d ++ CRLF ∧
    (101 ∈ doubleBody d ↔
      100000000 < |d.toRat| ∨ |d.toRat| < 1 / 100000000) ∧
    (¬(100000000 < |d.toRat| ∨ |d.toRat| < 1 / 100000000) →
      ((doubleBody d).head? = some 43 ∨ (doubleBody d).head? = some 45) ∧
      101 ∉ doubleBody d) := by
  have hcond : (d.absGtBig || d.absLtSmall) = true ↔
      (100000000 < |d.toRat| ∨ |d.toRat| < 1 / 100000000) := by
    rw [Bool.or_eq_true, Dec.absGtBig_iff, Dec.absLtSmall_iff]
  refine ⟨rfl, ?_, ?_⟩
  · unfold doubleBody
    by_cases hc : (d.absGtBig || d.absLtSmall) = true
    · rw [if_pos hc]
      rw [iff_true_intro (hcond.mp hc), iff_true]
      exact mem_101_fmtExpPlus d
    · rw [if_neg hc]
      have hnc : ¬(100000000 < |d.toRat| ∨ |d.toRat| < 1 / 100000000) :=
        fun hq => hc (hcond.mpr hq)
      constructor
      · intro hmem
        exfalso
        rw [List.mem_append] at hmem
        rcases hmem with hm | hm
        · split_ifs at hm <;> simp_all
        · have := fmtDisplay_le d 101 hm
          omega
      · intro hq
        exact absurd hq hnc
  · intro h
    have hc : ¬(d.absGtBig || d.absLtSmall) = true := fun hcc => h (hcond.mp hcc)
    unfold doubleBody
    rw [if_neg hc]
    have hm0 : d.m ≠ 0 := by
      intro hm
      exact hc (by rw [Dec.absLtSmall_of_m_zero d hm, Bool.or_true])
    obtain ⟨hnz, hsgn⟩ := Dec.norm_m_pos_facts d hm0
    constructor
    · by_cases hneg : d.m < 0
      · right
        rw [if_pos hneg]
        simp only [List.nil_append]
        unfold fmtDisplay
        rw [if_pos (hsgn.mpr hneg)]
        simp
      · left
        rw [if_neg hneg]
        simp
    · intro hmem
      rw [List.mem_append] at hmem
      rcases hmem with hm | hm
      · split_ifs at hm <;> simp_all
      · have := fmtDisplay_le d 101 hm
        omega

/-- Witness for the amended C7: `3.44` is in the fixed range, its body
carries a leading explicit sign and no `e`. -/
theorem double_encode_branch_witness :
    ((doubleBody ⟨344, -2⟩).head? = some 43 ∨
      (doubleBody ⟨344, -2⟩).head? = some 45) ∧
    101 ∉ doubleBody ⟨344, -2⟩ :=
  (double_encode_branch_characterization ⟨344, -2⟩).2.2 (by
    rintro (h | h)
    · exact absurd ((Dec.absGtBig_iff _).mpr h) (by decide)
    · exact absurd ((Dec.absLtSmall_iff _).mpr h) (by decide))

/-- Counterexample to C8 as stated: `1.23456e8` is in the scientific
range but its encoding `,+1.23456e8\r\n` carries no sign on the
exponent (the byte after `e` is the digit `8`). -/
theorem double_sci_exponent_unsigned_counterexample :
    Dec.absGtBig ⟨123456, 3⟩ = true ∧
    encodeFrame (.Double ⟨123456, 3⟩) =
      [44, 43, 49, 46, 50, 51, 52, 53, 54, 101, 56, 13, 10] ∧
    expSigned (encodeFrame (.Double ⟨123456, 3⟩)) = false := by decide

/-- C8 (amended): in the scientific range the output carries an explicit
sign on the mantissa, while the exponent is rendered unpadded with a
sign only when it is negative (digits only when non-negative). -/
theorem double_sci_mantissa_signed_exponent_sign_iff_neg (d : Dec)
    (h : 100000000 < |d.toRat| ∨ |d.toRat| < 1 / 100000000) :
    ∃ s mant ex, doubleBody d = s :: (mant ++ 101 :: intDec ex) ∧
      (s = 43 ∨ s = 45) ∧
      ((intDec ex).head? = some 45 ↔ ex < 0) ∧
      (0 ≤ ex → ∀ b ∈ intDec ex, isDigit b = true) ∧
      101 ∉ mant := by
  have hc : (d.absGtBig || d.absLtSmall) = true := by
    rw [Bool.or_eq_true, Dec.absGtBig_iff, Dec.absLtSmall_iff]
    exact h
  unfold doubleBody
  rw [if_pos hc]
  obtain ⟨s, mant, ex, heq, hs, _, hmant⟩ := fmtExpPlus_structure d
  refine ⟨s, mant, ex, heq, hs, intDec_head_neg_iff ex, intDec_digits_of_nonneg ex, ?_⟩
  intro hm
  have := hmant 101 hm
  omega

/-- Witness for the amended C8, at `1.23456e8`. -/
theorem double_sci_signs_witness :
    ∃ s mant ex, doubleBody ⟨123456, 3⟩ = s :: (mant ++ 101 :: intDec ex) ∧
      (s = 43 ∨ s = 45) ∧
      ((intDec ex).head? = some 45 ↔ ex < 0) ∧
      (0 ≤ ex → ∀ b ∈ intDec ex, isDigit b = true) ∧
      101 ∉ mant :=
  double_sci_mantissa_signed_exponent_sign_iff_neg ⟨123456, 3⟩
    (Or.inl ((Dec.absGtBig_iff _).mp (by decide)))

/-! ## Decoder lemmas: lines, integers, splits -/

theorem readLine_append (s t : List Nat) (hs : 13 ∉ s) :
    readLine (s ++ 13 :: 10 :: t) = some (s, s.length + 2) := by
  induction s with
  | nil => simp [readLine]
  | cons a s' ih =>
    rw [List.mem_cons] at hs
    push_neg at hs
    obtain ⟨ha, hs'⟩ := hs
    have hcons : (a :: s') ++ 13 :: 10 :: t = a :: (s' ++ 13 :: 10 :: t) := rfl
    rw [hcons]
    cases hrest : s' ++ 13 :: 10 :: t with
    | nil => exact absurd hrest (by simp)
    | cons c rest' =>
      simp only [readLine]
      rw [if_neg (by rintro ⟨h1, h2⟩; exact ha h1.symm)]
      rw [← hrest, ih hs']
      simp

theorem natDec_no13 (n : Nat) : 13 ∉ natDec n := by
  intro h
  have := natDec_mem_range h
  omega

theorem natDec_ne_neg1 (n : Nat) : natDec n ≠ [45, 49] := by
  intro h
  have h45 : 45 ∈ natDec n := by rw [h]; exact List.mem_cons_self _ _
  have := natDec_mem_range h45
  omega

theorem parseNatDigits_of_digits (l : List Nat) (h1 : l ≠ [])
    (h2 : ∀ b ∈ l, 48 ≤ b ∧ b ≤ 57) :
    parseNatDigits l = some (digitsVal (l.map (fun b => b - 48))) := by
  unfold parseNatDigits
  rw [if_pos]
  refine ⟨h1, ?_⟩
  rw [List.all_eq_true]
  intro b hb
  have := h2 b hb
  simp [isDigit]
  omega

theorem parseIntLine_intDec (i : Int) : parseIntLine (intDec i) = some i := by
  unfold intDec
  split_ifs with h
  · simp only [parseIntLine, if_pos]
    rw [parseNatDigits_natDec]
    simp only [Option.some.injEq]
    omega
  · cases hds : natDec i.natAbs with
    | nil => exact absurd hds (natDec_ne_nil _)
    | cons d1 rest =>
      have hd1 : 48 ≤ d1 ∧ d1 ≤ 57 :=
        natDec_mem_range (by rw [hds]; exact List.mem_cons_self _ _)
      simp only [parseIntLine]
      rw [if_neg (by omega), if_neg (by omega), ← hds, parseNatDigits_natDec]
      simp only [Option.some.injEq]
      omega

theorem parseIntLine_signed (i : Int) :
    parseIntLine ((if i < 0 then [] else [43]) ++ intDec i) = some i := by
  split_ifs with h
  · simpa using parseIntLine_intDec i
  · unfold intDec
    rw [if_neg h]
    simp only [List.singleton_append, parseIntLine]
    rw [if_neg (by omega)]
    simp only [if_true]
    rw [parseNatDigits_natDec]
    simp only [Option.some.injEq]
    omega

theorem splitAtByte_not_mem (t : Nat) (l : List Nat) (h : t ∉ l) :
    splitAtByte t l = (l, none) := by
  induction l with
  | nil => rfl
  | cons c rest ih =>
    rw [List.mem_cons] at h
    push_neg at h
    simp only [splitAtByte]
    rw [if_neg (fun hh => h.1 hh.symm), ih h.2]

theorem splitAtByte_append (t : Nat) (l₁ l₂ : List Nat) (h : t ∉ l₁) :
    splitAtByte t (l₁ ++ t :: l₂) = (l₁, some l₂) := by
  induction l₁ with
  | nil => simp [splitAtByte]
  | cons c rest ih =>
    rw [List.mem_cons] at h
    push_neg at h
    simp only [List.cons_append, splitAtByte]
    rw [if_neg (fun hh => h.1 hh.symm)]
    simp only [List.append_eq]
    rw [ih h.2]

theorem digitsVal_replicate_zero (n : Nat) :
    digitsVal (List.replicate n 0) = 0 := by
  have hgen : ∀ m acc, List.foldl (fun acc d => acc * 10 + d) acc
      (List.replicate m 0) = acc * 10 ^ m := by
    intro m
    induction m with
    | zero => intro acc; simp
    | succ j ih =>
      intro acc
      rw [List.replicate_succ, List.foldl_cons, ih]
      ring
  unfold digitsVal
  rw [hgen]
  simp

/-! ## Double round-trip -/

theorem norm_self_facts (d : Dec) (hm : d.m ≠ 0) (hn : Dec.norm d = d) :
    d.m.natAbs % 10 ≠ 0 := by
  obtain ⟨hp1, hp10, heq⟩ := stripTens_spec d.m.natAbs (by simpa using hm)
  unfold Dec.norm at hn
  rw [if_neg hm] at hn
  have he : d.e + ((stripTens d.m.natAbs).2 : Int) = d.e := congrArg Dec.e hn
  have hp2 : (stripTens d.m.natAbs).2 = 0 := by omega
  rw [hp2, pow_zero, Nat.mul_one] at heq
  rw [heq]
  exact hp10

theorem parseDecBody_mantissa (A : Nat) (ex : Int) (neg : Bool) :
    parseDecBody neg ((natDec A).take 1 ++
      (if (natDec A).length ≤ 1 then [] else 46 :: (natDec A).drop 1) ++
      101 :: intDec ex) =
    some (Dec.norm ⟨(if neg then -(A : Int) else (A : Int)),
      ex - (((natDec A).length - 1 : Nat) : Int)⟩) := by
  cases hds : natDec A with
  | nil => exact absurd hds (natDec_ne_nil _)
  | cons d1 rest =>
    have hrange : ∀ b ∈ natDec A, 48 ≤ b ∧ b ≤ 57 := fun b hb => natDec_mem_range hb
    have hd1 : 48 ≤ d1 ∧ d1 ≤ 57 :=
      hrange d1 (by rw [hds]; exact List.mem_cons_self _ _)
    cases rest with
    | nil =>
      simp only [List.take_succ_cons, List.take_zero, List.length_cons,
        List.length_nil, Nat.zero_add, le_refl, if_pos, List.append_nil]
      have hsplit101 : splitAtByte 101 ([d1] ++ 101 :: intDec ex) =
          ([d1], some (intDec ex)) :=
        splitAtByte_append 101 [d1] (intDec ex) (by simp; omega)
      have hsplit46 : splitAtByte 46 [d1] = ([d1], none) :=
        splitAtByte_not_mem 46 [d1] (by simp; omega)
      have hpn : parseNatDigits [d1] = some A := by
        rw [← hds, parseNatDigits_natDec]
      unfold parseDecBody
      rw [hsplit101]
      simp only
      rw [hsplit46]
      simp only
      rw [hpn, parseIntLine_intDec]
      simp only [pow_zero, Nat.mul_one, Nat.add_zero, Nat.cast_zero, sub_zero,
        Option.some.injEq]
      norm_num
    | cons d2 rest' =>
      have hlen : ¬((d1 :: d2 :: rest').length ≤ 1) := by simp
      simp only [List.take_succ_cons, List.take_zero, List.drop_succ_cons,
        List.drop_zero, if_neg hlen]
      have hmant : [d1] ++ 46 :: d2 :: rest' ++ 101 :: intDec ex =
          ([d1] ++ 46 :: (d2 :: rest')) ++ 101 :: intDec ex := by simp
      have hrest_digits : ∀ b ∈ d2 :: rest', 48 ≤ b ∧ b ≤ 57 := by
        intro b hb
        exact hrange b (by rw [hds]; exact List.mem_cons_of_mem _ hb)
      have h101 : (101 : Nat) ∉ [d1] ++ 46 :: (d2 :: rest') := by
        intro hh
        simp only [List.mem_append, List.mem_cons, List.mem_singleton,
          List.not_mem_nil, or_false] at hh
        rcases hh with hh | hh | hh | hh
        · omega
        · omega
        · have := hrest_digits d2 (List.mem_cons_self _ _)
          omega
        · have := hrest_digits 101 (List.mem_cons_of_mem _ hh)
          omega
      have hsplit101 : splitAtByte 101 (([d1] ++ 46 :: (d2 :: rest')) ++ 101 :: intDec ex) =
          ([d1] ++ 46 :: (d2 :: rest'), some (intDec ex)) :=
        splitAtByte_append 101 _ _ h101
      have hsplit46 : splitAtByte 46 ([d1] ++ 46 :: (d2 :: rest')) =
          ([d1], some (d2 :: rest')) :=
        splitAtByte_append 46 [d1] _ (by simp; omega)
      have hpn1 : parseNatDigits [d1] = some (d1 - 48) := by
        rw [parseNatDigits_of_digits [d1] (by simp) (by simp; omega)]
        simp [digitsVal]
      have hpn2 : parseNatDigits (d2 :: rest') =
          some (digitsVal ((d2 :: rest').map (fun b => b - 48))) :=
        parseNatDigits_of_digits _ (by simp) hrest_digits
      have hrecomp : (d1 - 48) * 10 ^ (d2 :: rest').length +
          digitsVal ((d2 :: rest').map (fun b => b - 48)) = A := by
        have h1 := digitsVal_natDec A
        rw [hds, List.map_cons, digitsVal, List.foldl_cons,
          foldl_digits_general] at h1
        simp only [Nat.zero_mul, Nat.zero_add, List.length_map] at h1
        exact h1
      unfold parseDecBody
      rw [hmant, hsplit101]
      simp only
      rw [hsplit46]
      simp only
      rw [hpn1, hpn2, parseIntLine_intDec]
      simp only [Option.some.injEq]
      rw [hrecomp]
      have hflen : ((d2 :: rest').length : Int) =
          (((d1 :: d2 :: rest').length - 1 : Nat) : Int) := by
        simp
      rw [hflen]

theorem natAbs_if_neg (P : Nat) (neg : Bool) :
    (if neg then -((P : Nat) : Int) else ((P : Nat) : Int)).natAbs = P := by
  cases neg <;> simp

theorem parseDecBody_fixed_int (A E : Nat) (neg : Bool) (hA : A ≠ 0)
    (h10 : A % 10 ≠ 0) :
    parseDecBody neg (natDec A ++ List.replicate E 48) =
    some ⟨(if neg then -(A : Int) else (A : Int)), (E : Int)⟩ := by
  have hrange : ∀ b ∈ natDec A ++ List.replicate E 48, 48 ≤ b ∧ b ≤ 57 := by
    intro b hb
    rw [List.mem_append] at hb
    rcases hb with hb | hb
    · exact natDec_mem_range hb
    · rw [List.mem_replicate] at hb
      omega
  have hne : natDec A ++ List.replicate E 48 ≠ [] := by
    intro h
    exact natDec_ne_nil A (List.append_eq_nil.mp h).1
  have h101 : (101 : Nat) ∉ natDec A ++ List.replicate E 48 := by
    intro hh
    have := hrange 101 hh
    omega
  have h46 : (46 : Nat) ∉ natDec A ++ List.replicate E 48 := by
    intro hh
    have := hrange 46 hh
    omega
  have hval : digitsVal ((natDec A ++ List.replicate E 48).map (fun b => b - 48)) =
      A * 10 ^ E := by
    rw [List.map_append, digitsVal_append, List.map_replicate]
    simp only [List.length_replicate]
    rw [digitsVal_natDec]
    norm_num [digitsVal_replicate_zero]
  unfold parseDecBody
  rw [splitAtByte_not_mem 101 _ h101]
  simp only
  rw [splitAtByte_not_mem 46 _ h46]
  simp only
  rw [parseNatDigits_of_digits _ hne hrange, hval]
  simp only [pow_zero, Nat.mul_one, Nat.add_zero, Nat.cast_zero, sub_zero,
    Option.some.injEq]
  rw [Dec.norm_eq _ _ A E (natAbs_if_neg (A * 10 ^ E) neg) hA h10]
  have hP : 0 < A * 10 ^ E :=
    Nat.mul_pos (Nat.pos_of_ne_zero hA) (Nat.pow_pos (by norm_num))
  have h0 : (0 : Int) < ↑(A * 10 ^ E) := by exact_mod_cast hP
  cases neg
  · simp only [Bool.false_eq_true, if_false]
    rw [if_neg (by omega : ¬((↑(A * 10 ^ E) : Int) < 0))]
    norm_num
  · simp only [if_true]
    rw [if_pos (by omega : (-(↑(A * 10 ^ E) : Int)) < 0)]
    norm_num

theorem parseDecBody_fixed_point (A k : Nat) (neg : Bool) (hA : A ≠ 0)
    (h10 : A % 10 ≠ 0) (hk1 : 1 ≤ k) (hklen : k < (natDec A).length) :
    parseDecBody neg ((natDec A).take ((natDec A).length - k) ++
      46 :: (natDec A).drop ((natDec A).length - k)) =
    some ⟨(if neg then -(A : Int) else (A : Int)), -(k : Int)⟩ := by
  have htake_digits : ∀ b ∈ (natDec A).take ((natDec A).length - k), 48 ≤ b ∧ b ≤ 57 :=
    fun b hb => natDec_mem_range (List.mem_of_mem_take hb)
  have hdrop_digits : ∀ b ∈ (natDec A).drop ((natDec A).length - k), 48 ≤ b ∧ b ≤ 57 :=
    fun b hb => natDec_mem_range (List.mem_of_mem_drop hb)
  have htake_ne : (natDec A).take ((natDec A).length - k) ≠ [] := by
    intro h
    have := congrArg List.length h
    rw [List.length_take] at this
    simp at this
    omega
  have hdrop_len : ((natDec A).drop ((natDec A).length - k)).length = k := by
    rw [List.length_drop]
    omega
  have hdrop_ne : (natDec A).drop ((natDec A).length - k) ≠ [] := by
    intro h
    have := congrArg List.length h
    rw [hdrop_len] at this
    simp at this
    omega
  have h101 : (101 : Nat) ∉ (natDec A).take ((natDec A).length - k) ++
      46 :: (natDec A).drop ((natDec A).length - k) := by
    intro hh
    rw [List.mem_append, List.mem_cons] at hh
    rcases hh with hh | hh | hh
    · have := htake_digits 101 hh
      omega
    · omega
    · have := hdrop_digits 101 hh
      omega
  have h46 : (46 : Nat) ∉ (natDec A).take ((natDec A).length - k) := by
    intro hh
    have := htake_digits 46 hh
    omega
  have hrecomp : digitsVal (((natDec A).take ((natDec A).length - k)).map
        (fun b => b - 48)) * 10 ^ k +
      digitsVal (((natDec A).drop ((natDec A).length - k)).map (fun b => b - 48)) = A := by
    have h1 := digitsVal_natDec A
    rw [← List.take_append_drop ((natDec A).length - k) (natDec A)] at h1
    rw [List.map_append, digitsVal_append, List.length_map, hdrop_len] at h1
    exact h1
  unfold parseDecBody
  rw [splitAtByte_not_mem 101 _ h101]
  simp only
  rw [splitAtByte_append 46 _ _ h46]
  simp only
  rw [parseNatDigits_of_digits _ htake_ne htake_digits,
    parseNatDigits_of_digits _ hdrop_ne hdrop_digits]
  simp only [Option.some.injEq, hdrop_len]
  rw [hrecomp]
  have hzero : (0 : Int) - (k : Int) = -(k : Int) := by ring
  rw [hzero]
  rw [Dec.norm_eq _ _ A 0
    (by rw [natAbs_if_neg A neg, pow_zero, Nat.mul_one]) hA h10]
  have h0 : (0 : Int) < ↑A := by exact_mod_cast Nat.pos_of_ne_zero hA
  cases neg
  · simp only [Bool.false_eq_true, if_false]
    rw [if_neg (by omega : ¬((↑A : Int) < 0))]
    norm_num
  · simp only [if_true]
    rw [if_pos (by omega : (-(↑A : Int)) < 0)]
    norm_num

theorem parseDecBody_fixed_small (A k : Nat) (neg : Bool) (hA : A ≠ 0)
    (h10 : A % 10 ≠ 0) (hklen : (natDec A).length ≤ k) :
    parseDecBody neg ([48, 46] ++ List.replicate (k - (natDec A).length) 48 ++ natDec A) =
    some ⟨(if neg then -(A : Int) else (A : Int)), -(k : Int)⟩ := by
  have hfrac_digits : ∀ b ∈ List.replicate (k - (natDec A).length) 48 ++ natDec A,
      48 ≤ b ∧ b ≤ 57 := by
    intro b hb
    rw [List.mem_append] at hb
    rcases hb with hb | hb
    · rw [List.mem_replicate] at hb
      omega
    · exact natDec_mem_range hb
  have hfrac_ne : List.replicate (k - (natDec A).length) 48 ++ natDec A ≠ [] := by
    intro h
    exact natDec_ne_nil A (List.append_eq_nil.mp h).2
  have hfrac_len : (List.replicate (k - (natDec A).length) 48 ++ natDec A).length = k := by
    rw [List.length_append, List.length_replicate]
    omega
  have h101 : (101 : Nat) ∉ [48, 46] ++ List.replicate (k - (natDec A).length) 48 ++
      natDec A := by
    intro hh
    rw [List.mem_append, List.mem_append] at hh
    rcases hh with (hh | hh) | hh
    · simp at hh
    · rw [List.mem_replicate] at hh
      omega
    · have := natDec_mem_range hh
      omega
  have hfval : digitsVal ((List.replicate (k - (natDec A).length) 48 ++
      natDec A).map (fun b => b - 48)) = A := by
    rw [List.map_append, digitsVal_append, List.map_replicate]
    norm_num [digitsVal_replicate_zero, digitsVal_natDec]
  have hshape : [48, 46] ++ List.replicate (k - (natDec A).length) 48 ++ natDec A =
      [48] ++ 46 :: (List.replicate (k - (natDec A).length) 48 ++ natDec A) := by
    simp
  unfold parseDecBody
  rw [hshape, splitAtByte_not_mem 101 _ (by rw [← hshape]; exact h101)]
  simp only
  rw [splitAtByte_append 46 [48] _ (by simp)]
  simp only
  rw [parseNatDigits_of_digits [48] (by simp) (by simp),
    parseNatDigits_of_digits _ hfrac_ne hfrac_digits, hfval]
  simp only [Option.some.injEq, hfrac_len]
  have h48 : digitsVal ([48].map (fun b => b - 48)) = 0 := by
    simp [digitsVal]
  rw [h48]
  simp only [Nat.zero_mul, Nat.zero_add]
  have hzero : (0 : Int) - (k : Int) = -(k : Int) := by ring
  rw [hzero]
  rw [Dec.norm_eq _ _ A 0
    (by rw [natAbs_if_neg A neg, pow_zero, Nat.mul_one]) hA h10]
  have h0 : (0 : Int) < ↑A := by exact_mod_cast Nat.pos_of_ne_zero hA
  cases neg
  · simp only [Bool.false_eq_true, if_false]
    rw [if_neg (by omega : ¬((↑A : Int) < 0))]
    norm_num
  · simp only [if_true]
    rw [if_pos (by omega : (-(↑A : Int)) < 0)]
    norm_num

theorem parseDecLine_doubleBody (d : Dec) (hn : Dec.norm d = d) :
    parseDecLine (doubleBody d) = some d := by
  unfold doubleBody
  by_cases hc : (d.absGtBig || d.absLtSmall) = true
  · rw [if_pos hc]
    unfold fmtExpPlus
    rw [hn]
    by_cases hneg : d.m < 0
    · rw [if_pos hneg]
      simp only [List.singleton_append, List.cons_append, List.nil_append]
      simp only [parseDecLine]
      rw [if_pos trivial]
      rw [parseDecBody_mantissa d.m.natAbs
        (d.e + (((natDec d.m.natAbs).length - 1 : Nat) : Int)) true]
      simp only [if_true]
      have h1 : -((d.m.natAbs : Nat) : Int) = d.m := by omega
      have h2 : d.e + (((natDec d.m.natAbs).length - 1 : Nat) : Int) -
          (((natDec d.m.natAbs).length - 1 : Nat) : Int) = d.e := by ring
      rw [h1, h2, hn]
      rw [if_neg (by norm_num)]
    · rw [if_neg hneg]
      simp only [List.singleton_append, List.cons_append, List.nil_append]
      simp only [parseDecLine]
      rw [if_pos trivial]
      rw [parseDecBody_mantissa d.m.natAbs
        (d.e + (((natDec d.m.natAbs).length - 1 : Nat) : Int)) false]
      simp only [Bool.false_eq_true, if_false]
      have h1 : ((d.m.natAbs : Nat) : Int) = d.m := by omega
      have h2 : d.e + (((natDec d.m.natAbs).length - 1 : Nat) : Int) -
          (((natDec d.m.natAbs).length - 1 : Nat) : Int) = d.e := by ring
      rw [h1, h2, hn]
  · rw [if_neg hc]
    have hm0 : d.m ≠ 0 := fun hm =>
      hc (by rw [Dec.absLtSmall_of_m_zero d hm, Bool.or_true])
    have hmod := norm_self_facts d hm0 hn
    have hA : d.m.natAbs ≠ 0 := by simpa using hm0
    unfold fmtDisplay
    rw [hn]
    by_cases he : 0 ≤ d.e
    · rw [if_pos he]
      by_cases hneg : d.m < 0
      · rw [if_pos hneg, if_pos hneg]
        simp only [List.nil_append, List.singleton_append, List.cons_append]
        simp only [parseDecLine]
        rw [if_pos trivial]
        rw [parseDecBody_fixed_int d.m.natAbs d.e.toNat true hA hmod]
        simp only [if_true]
        have h1 : -((d.m.natAbs : Nat) : Int) = d.m := by omega
        have h2 : ((d.e.toNat : Nat) : Int) = d.e := by omega
        rw [h1, h2]
        rw [if_neg (by norm_num)]
      · rw [if_neg hneg, if_neg hneg]
        simp only [List.nil_append, List.singleton_append, List.cons_append]
        simp only [parseDecLine]
        rw [if_pos trivial]
        rw [parseDecBody_fixed_int d.m.natAbs d.e.toNat false hA hmod]
        simp only [Bool.false_eq_true, if_false]
        have h1 : ((d.m.natAbs : Nat) : Int) = d.m := by omega
        have h2 : ((d.e.toNat : Nat) : Int) = d.e := by omega
        rw [h1, h2]
    · rw [if_neg he]
      push_neg at he
      have hk1 : 1 ≤ (-d.e).toNat := by omega
      have hke : -(((-d.e).toNat : Nat) : Int) = d.e := by omega
      by_cases hk : (-d.e).toNat < (natDec d.m.natAbs).length
      · rw [if_pos hk]
        by_cases hneg : d.m < 0
        · rw [if_pos hneg, if_pos hneg]
          simp only [List.nil_append, List.singleton_append, List.cons_append]
          simp only [parseDecLine]
          rw [if_pos trivial]
          rw [parseDecBody_fixed_point d.m.natAbs (-d.e).toNat true hA hmod hk1 hk]
          simp only [if_true]
          have h1 : -((d.m.natAbs : Nat) : Int) = d.m := by omega
          rw [h1, hke]
          rw [if_neg (by norm_num)]
        · rw [if_neg hneg, if_neg hneg]
          simp only [List.nil_append, List.singleton_append, List.cons_append]
          simp only [parseDecLine]
          rw [if_pos trivial]
          rw [parseDecBody_fixed_point d.m.natAbs (-d.e).toNat false hA hmod hk1 hk]
          simp only [Bool.false_eq_true, if_false]
          have h1 : ((d.m.natAbs : Nat) : Int) = d.m := by omega
          rw [h1, hke]
      · rw [if_neg hk]
        push_neg at hk
        by_cases hneg : d.m < 0
        · rw [if_pos hneg, if_pos hneg]
          simp only [List.nil_append, List.singleton_append, List.cons_append]
          simp only [parseDecLine]
          rw [if_pos trivial]
          have hsh : (48 : Nat) :: 46 :: (List.replicate ((-d.e).toNat -
              (natDec d.m.natAbs).length) 48 ++ natDec d.m.natAbs) =
              [48, 46] ++ List.replicate ((-d.e).toNat -
                (natDec d.m.natAbs).length) 48 ++ natDec d.m.natAbs := by simp
          rw [hsh]
          rw [parseDecBody_fixed_small d.m.natAbs (-d.e).toNat true hA hmod hk]
          simp only [if_true]
          have h1 : -((d.m.natAbs : Nat) : Int) = d.m := by omega
          rw [h1, hke]
          rw [if_neg (by norm_num)]
        · rw [if_neg hneg, if_neg hneg]
          simp only [List.nil_append, List.singleton_append, List.cons_append]
          simp only [parseDecLine]
          rw [if_pos trivial]
          have hsh : (48 : Nat) :: 46 :: (List.replicate ((-d.e).toNat -
              (natDec d.m.natAbs).length) 48 ++ natDec d.m.natAbs) =
              [48, 46] ++ List.replicate ((-d.e).toNat -
                (natDec d.m.natAbs).length) 48 ++ natDec d.m.natAbs := by simp
          rw [hsh]
          rw [parseDecBody_fixed_small d.m.natAbs (-d.e).toNat false hA hmod hk]
          simp only [Bool.false_eq_true, if_false]
          have h1 : ((d.m.natAbs : Nat) : Int) = d.m := by omega
          rw [h1, hke]

/-! ## Round-trip: per-variant helpers -/

theorem noCRLF_no13 (s : List Nat) (h : noCRLF s = true) : 13 ∉ s := by
  unfold noCRLF at h
  rw [Bool.and_eq_true] at h
  have h1 := h.1
  simp at h1
  exact h1

theorem intDec_no13 (i : Int) : 13 ∉ intDec i := by
  intro hh
  unfold intDec at hh
  split_ifs at hh
  · rw [List.mem_cons] at hh
    rcases hh with hh | hh
    · omega
    · have := natDec_mem_range hh
      omega
  · have := natDec_mem_range hh
    omega

theorem fmtDisplay_ge (d : Dec) : ∀ b ∈ fmtDisplay d, 45 ≤ b := by
  have hds : ∀ b ∈ natDec (Dec.norm d).m.natAbs, 45 ≤ b :=
    fun b hb => by have := natDec_mem_range hb; omega
  have hrep : ∀ n, ∀ b ∈ List.replicate n 48, 45 ≤ (b : Nat) := by
    intro n b hb
    rw [List.mem_replicate] at hb
    omega
  unfold fmtDisplay
  rw [List.forall_mem_append]
  constructor
  · intro b hb
    split_ifs at hb <;> simp_all
  · split_ifs with h1 h2
    · rw [List.forall_mem_append]
      exact ⟨hds, hrep _⟩
    · rw [List.forall_mem_append]
      refine ⟨fun b hb => hds b (List.mem_of_mem_take hb), ?_⟩
      intro b hb
      rw [List.mem_cons] at hb
      rcases hb with hb | hb
      · omega
      · exact hds b (List.mem_of_mem_drop hb)
    · rw [List.forall_mem_append]
      refine ⟨?_, hds⟩
      rw [List.forall_mem_append]
      refine ⟨?_, hrep _⟩
      intro b hb
      simp at hb
      omega

theorem fmtExpPlus_no13 (d : Dec) : 13 ∉ fmtExpPlus d := by
  intro hh
  unfold fmtExpPlus at hh
  rw [List.mem_append, List.mem_append, List.mem_append] at hh
  rcases hh with ((hh | hh) | hh) | hh
  · split_ifs at hh <;> simp_all
  · have := natDec_mem_range (List.mem_of_mem_take hh)
    omega
  · split_ifs at hh with h
    · simp at hh
    · rw [List.mem_cons] at hh
      rcases hh with hh | hh
      · omega
      · have := natDec_mem_range (List.mem_of_mem_drop hh)
        omega
  · rw [List.mem_cons] at hh
    rcases hh with hh | hh
    · omega
    · exact intDec_no13 _ hh

theorem doubleBody_no13 (d : Dec) : 13 ∉ doubleBody d := by
  intro hh
  unfold doubleBody at hh
  split_ifs at hh with h h2
  · exact fmtExpPlus_no13 d hh
  · rw [List.nil_append] at hh
    have := fmtDisplay_ge d 13 hh
    omega
  · rw [List.singleton_append, List.mem_cons] at hh
    rcases hh with hh | hh
    · omega
    · have := fmtDisplay_ge d 13 hh
      omega

theorem encodeList_len_ge (xs : List RespFrame) (x : RespFrame) (hx : x ∈ xs) :
    (encodeFrame x).length ≤ (encodeList xs).length := by
  induction xs with
  | nil => simp at hx
  | cons y ys ih =>
    rw [List.mem_cons] at hx
    simp only [encodeList, List.length_append]
    rcases hx with hx | hx
    · subst hx
      omega
    · have := ih hx
      omega

theorem encodePairs_len_ge (ps : List (List Nat × RespFrame))
    (p : List Nat × RespFrame) (hp : p ∈ ps) :
    p.1.length + 3 + (encodeFrame p.2).length ≤ (encodePairs ps).length := by
  induction ps with
  | nil => simp at hp
  | cons q qs ih =>
    obtain ⟨k, v⟩ := q
    rw [List.mem_cons] at hp
    simp only [encodePairs, List.length_append, List.length_cons, CRLF]
    rcases hp with hp | hp
    · subst hp
      simp
    · have := ih hp
      omega

theorem elemsGo_encode (dec : List Nat → DecodeResult) (xs : List RespFrame)
    (H : ∀ x ∈ xs, ∀ rest, dec (encodeFrame x ++ rest) =
      .Complete x (encodeFrame x).length) :
    ∀ rest, elemsGo dec xs.length (encodeList xs ++ rest) =
      .done xs (encodeList xs).length := by
  induction xs with
  | nil =>
    intro rest
    simp [elemsGo, encodeList]
  | cons x xs' ih =>
    intro rest
    have hx := H x (List.mem_cons_self _ _)
    simp only [List.length_cons, encodeList]
    rw [List.append_assoc]
    simp only [elemsGo]
    rw [hx (encodeList xs' ++ rest)]
    simp only
    rw [List.drop_left]
    rw [ih (fun y hy => H y (List.mem_cons_of_mem _ hy)) rest]
    simp [List.length_append]

theorem pairsGo_encode (dec : List Nat → DecodeResult)
    (ps : List (List Nat × RespFrame))
    (Hk : ∀ p ∈ ps, ∀ rest, dec ((43 :: p.1 ++ CRLF) ++ rest) =
      .Complete (.SimpleString p.1) (p.1.length + 3))
    (Hv : ∀ p ∈ ps, ∀ rest, dec (encodeFrame p.2 ++ rest) =
      .Complete p.2 (encodeFrame p.2).length) :
    ∀ rest, pairsGo dec ps.length (encodePairs ps ++ rest) =
      .done ps (encodePairs ps).length := by
  induction ps with
  | nil =>
    intro rest
    simp [pairsGo, encodePairs]
  | cons p ps' ih =>
    obtain ⟨k, v⟩ := p
    intro rest
    have hk := Hk (k, v) (List.mem_cons_self _ _)
    have hv := Hv (k, v) (List.mem_cons_self _ _)
    simp only [List.length_cons, encodePairs]
    rw [List.append_assoc, List.append_assoc]
    simp only [pairsGo]
    rw [hk (encodeFrame v ++ (encodePairs ps' ++ rest))]
    simp only
    have hlen3 : (43 :: k ++ CRLF).length = k.length + 3 := by simp [CRLF]
    rw [← hlen3, List.drop_left]
    rw [hv (encodePairs ps' ++ rest)]
    simp only
    rw [List.drop_left]
    rw [ih (fun q hq => Hk q (List.mem_cons_of_mem _ hq))
        (fun q hq => Hv q (List.mem_cons_of_mem _ hq)) rest]
    simp [CRLF, List.length_append]
    omega

theorem wfList_mem (xs : List RespFrame) (hwf : wfList xs = true) :
    ∀ x ∈ xs, wfFrame x = true := by
  induction xs with
  | nil => intro x hx; simp at hx
  | cons y ys ih =>
    simp only [wfList, Bool.and_eq_true] at hwf
    intro x hx
    rw [List.mem_cons] at hx
    rcases hx with hx | hx
    · subst hx; exact hwf.1
    · exact ih hwf.2 x hx

theorem wfPairs_mem (ps : List (List Nat × RespFrame)) (hwf : wfPairs ps = true) :
    ∀ p ∈ ps, noCRLF p.1 = true ∧ wfFrame p.2 = true := by
  induction ps with
  | nil => intro p hp; simp at hp
  | cons q qs ih =>
    obtain ⟨k, v⟩ := q
    simp only [wfPairs, Bool.and_eq_true] at hwf
    intro p hp
    rw [List.mem_cons] at hp
    rcases hp with hp | hp
    · subst hp; exact ⟨hwf.1.1, hwf.1.2⟩
    · exact ih hwf.2 p hp

theorem natDec_len_pos (n : Nat) : 0 < (natDec n).length :=
  List.length_pos.mpr (natDec_ne_nil n)

theorem encodeFrame_simpleString_len (s : List Nat) :
    (encodeFrame (.SimpleString s)).length = s.length + 3 := by
  simp [encodeFrame, CRLF]

theorem decodeFuel_encode :
    ∀ fuel, ∀ (f : RespFrame) (rest : List Nat), wfFrame f = true →
    (encodeFrame f).length < fuel →
    decodeFuel fuel (encodeFrame f ++ rest) = .Complete f (encodeFrame f).length := by
  intro fuel
  induction fuel using Nat.strong_induction_on with
  | _ fuel ih =>
    intro f rest hwf hlen
    cases fuel with
    | zero => omega
    | succ F =>
      cases f with
      | SimpleString s =>
        have h13 : 13 ∉ s := noCRLF_no13 s (by simpa [wfFrame] using hwf)
        have hshape : encodeFrame (.SimpleString s) ++ rest =
            43 :: (s ++ 13 :: 10 :: rest) := by simp [encodeFrame, CRLF]
        rw [hshape]
        simp only [decodeFuel]
        rw [if_pos trivial]
        rw [readLine_append s rest h13]
        simp only [DecodeResult.Complete.injEq, encodeFrame_simpleString_len]
      | SimpleError s =>
        have h13 : 13 ∉ s := noCRLF_no13 s (by simpa [wfFrame] using hwf)
        have hshape : encodeFrame (.SimpleError s) ++ rest =
            45 :: (s ++ 13 :: 10 :: rest) := by simp [encodeFrame, CRLF]
        rw [hshape]
        simp only [decodeFuel]
        rw [if_neg (by norm_num), if_pos trivial]
        rw [readLine_append s rest h13]
        simp only [DecodeResult.Complete.injEq]
        refine ⟨trivial, ?_⟩
        simp [encodeFrame, CRLF]
      | Integer i =>
        have h13 : 13 ∉ (if i < 0 then ([] : List Nat) else [43]) ++ intDec i := by
          intro hh
          rw [List.mem_append] at hh
          rcases hh with hh | hh
          · split_ifs at hh <;> simp_all
          · exact intDec_no13 i hh
        have hshape : encodeFrame (.Integer i) ++ rest =
            58 :: (((if i < 0 then ([] : List Nat) else [43]) ++ intDec i) ++
              13 :: 10 :: rest) := by simp [encodeFrame, CRLF]
        rw [hshape]
        simp only [decodeFuel]
        rw [if_neg (by norm_num), if_neg (by norm_num), if_pos trivial]
        rw [readLine_append _ rest h13]
        simp only
        rw [parseIntLine_signed i]
        simp only [DecodeResult.Complete.injEq]
        refine ⟨trivial, ?_⟩
        simp [encodeFrame, CRLF]
        split_ifs <;> simp [intDec] <;> omega
      | BulkString b =>
        have hshape : encodeFrame (.BulkString b) ++ rest =
            36 :: (natDec b.length ++ 13 :: 10 :: (b ++ 13 :: 10 :: rest)) := by
          simp [encodeFrame, CRLF]
        rw [hshape]
        simp only [decodeFuel]
        rw [if_neg (by norm_num), if_neg (by norm_num), if_neg (by norm_num),
          if_pos trivial]
        rw [readLine_append _ _ (natDec_no13 _)]
        simp only
        rw [if_neg (natDec_ne_neg1 _), parseNatDigits_natDec]
        simp only
        have hdrop : (natDec b.length ++ 13 :: 10 :: (b ++ 13 :: 10 :: rest)).drop
            ((natDec b.length).length + 2) = b ++ 13 :: 10 :: rest := by
          have h1 : natDec b.length ++ 13 :: 10 :: (b ++ 13 :: 10 :: rest) =
              (natDec b.length ++ [13, 10]) ++ (b ++ 13 :: 10 :: rest) := by simp
          have h2 : (natDec b.length ++ [13, 10]).length =
              (natDec b.length).length + 2 := by simp
          rw [h1, ← h2, List.drop_left]
        rw [hdrop]
        have hlen2 : (b ++ 13 :: 10 :: rest).length = b.length + 2 + rest.length := by
          simp
          omega
        rw [if_neg (by rw [hlen2]; omega)]
        have hdrop2 : (b ++ 13 :: 10 :: rest).drop b.length = 13 :: 10 :: rest :=
          List.drop_left b (13 :: 10 :: rest)
        rw [hdrop2]
        rw [if_pos (show (13 :: 10 :: rest).take 2 = CRLF from rfl)]
        rw [List.take_left]
        simp only [DecodeResult.Complete.injEq]
        refine ⟨trivial, ?_⟩
        simp [encodeFrame, CRLF]
        omega
      | NullBulkString =>
        have hshape : encodeFrame .NullBulkString ++ rest =
            36 :: ([45, 49] ++ 13 :: 10 :: rest) := by simp [encodeFrame, CRLF]
        rw [hshape]
        simp only [decodeFuel]
        rw [if_neg (by norm_num), if_neg (by norm_num), if_neg (by norm_num),
          if_pos trivial]
        rw [readLine_append _ _ (by simp)]
        simp only
        rw [if_pos trivial]
        simp [encodeFrame]
      | Array xs =>
        simp only [wfFrame] at hwf
        have hx_wf := wfList_mem xs hwf
        have hlen_arr : (encodeFrame (.Array xs)).length =
            1 + ((natDec xs.length).length + 2 + (encodeList xs).length) := by
          simp [encodeFrame, CRLF]
          omega
        have hshape : encodeFrame (.Array xs) ++ rest =
            42 :: (natDec xs.length ++ 13 :: 10 :: (encodeList xs ++ rest)) := by
          simp [encodeFrame, CRLF]
        rw [hshape]
        simp only [decodeFuel]
        rw [if_neg (by norm_num), if_neg (by norm_num), if_neg (by norm_num),
          if_neg (by norm_num), if_pos trivial]
        rw [readLine_append _ _ (natDec_no13 _)]
        simp only
        rw [if_neg (natDec_ne_neg1 _), parseNatDigits_natDec]
        simp only
        have hdrop : (natDec xs.length ++ 13 :: 10 :: (encodeList xs ++ rest)).drop
            ((natDec xs.length).length + 2) = encodeList xs ++ rest := by
          have h1 : natDec xs.length ++ 13 :: 10 :: (encodeList xs ++ rest) =
              (natDec xs.length ++ [13, 10]) ++ (encodeList xs ++ rest) := by simp
          have h2 : (natDec xs.length ++ [13, 10]).length =
              (natDec xs.length).length + 2 := by simp
          rw [h1, ← h2, List.drop_left]
        rw [hdrop]
        have hH : ∀ x ∈ xs, ∀ r, decodeFuel F (encodeFrame x ++ r) =
            .Complete x (encodeFrame x).length := by
          intro x hx r
          apply ih F (by omega) x r (hx_wf x hx)
          have h1 := encodeList_len_ge xs x hx
          have h2 := natDec_len_pos xs.length
          omega
        rw [elemsGo_encode (fun b => decodeFuel F b) xs hH rest]
        simp only [DecodeResult.Complete.injEq]
        refine ⟨trivial, ?_⟩
        omega
      | NullArray =>
        have hshape : encodeFrame .NullArray ++ rest =
            42 :: ([45, 49] ++ 13 :: 10 :: rest) := by simp [encodeFrame, CRLF]
        rw [hshape]
        simp only [decodeFuel]
        rw [if_neg (by norm_num), if_neg (by norm_num), if_neg (by norm_num),
          if_neg (by norm_num), if_pos trivial]
        rw [readLine_append _ _ (by simp)]
        simp only
        rw [if_pos trivial]
        simp [encodeFrame]
      | Null =>
        have hshape : encodeFrame .Null ++ rest =
            95 :: (([] : List Nat) ++ 13 :: 10 :: rest) := by simp [encodeFrame, CRLF]
        rw [hshape]
        simp only [decodeFuel]
        rw [if_neg (by norm_num), if_neg (by norm_num), if_neg (by norm_num),
          if_neg (by norm_num), if_neg (by norm_num), if_pos trivial]
        rw [readLine_append _ _ (by simp)]
        simp only
        rw [if_pos trivial]
        simp [encodeFrame]
      | Boolean b =>
        cases b
        · have hshape : encodeFrame (.Boolean false) ++ rest =
              35 :: ([102] ++ 13 :: 10 :: rest) := by simp [encodeFrame, CRLF]
          rw [hshape]
          simp only [decodeFuel]
          rw [if_neg (by norm_num), if_neg (by norm_num), if_neg (by norm_num),
            if_neg (by norm_num), if_neg (by norm_num), if_neg (by norm_num),
            if_pos trivial]
          rw [readLine_append _ _ (by simp)]
          simp only
          rw [if_pos trivial]
          simp [encodeFrame, CRLF]
        · have hshape : encodeFrame (.Boolean true) ++ rest =
              35 :: ([116] ++ 13 :: 10 :: rest) := by simp [encodeFrame, CRLF]
          rw [hshape]
          simp only [decodeFuel]
          rw [if_neg (by norm_num), if_neg (by norm_num), if_neg (by norm_num),
            if_neg (by norm_num), if_neg (by norm_num), if_neg (by norm_num),
            if_pos trivial]
          rw [readLine_append _ _ (by simp)]
          simp only
          rw [if_pos trivial]
          simp [encodeFrame, CRLF]
      | Double d =>
        have hnorm : Dec.norm d = d := by
          simp only [wfFrame, beq_iff_eq] at hwf
          exact hwf
        have hshape : encodeFrame (.Double d) ++ rest =
            44 :: (doubleBody d ++ 13 :: 10 :: rest) := by simp [encodeFrame, CRLF]
        rw [hshape]
        simp only [decodeFuel]
        rw [if_neg (by norm_num), if_neg (by norm_num), if_neg (by norm_num),
          if_neg (by norm_num), if_neg (by norm_num), if_neg (by norm_num),
          if_neg (by norm_num), if_pos trivial]
        rw [readLine_append _ _ (doubleBody_no13 d)]
        simp only
        rw [parseDecLine_doubleBody d hnorm]
        simp only [DecodeResult.Complete.injEq]
        refine ⟨trivial, ?_⟩
        simp [encodeFrame, CRLF]
      | Map ps =>
        simp only [wfFrame] at hwf
        have hp_wf := wfPairs_mem ps hwf
        have hlen_map : (encodeFrame (.Map ps)).length =
            1 + ((natDec ps.length).length + 2 + (encodePairs ps).length) := by
          simp [encodeFrame, CRLF]
          omega
        have hshape : encodeFrame (.Map ps) ++ rest =
            37 :: (natDec ps.length ++ 13 :: 10 :: (encodePairs ps ++ rest)) := by
          simp [encodeFrame, CRLF]
        rw [hshape]
        simp only [decodeFuel]
        rw [if_neg (by norm_num), if_neg (by norm_num), if_neg (by norm_num),
          if_neg (by norm_num), if_neg (by norm_num), if_neg (by norm_num),
          if_neg (by norm_num), if_neg (by norm_num), if_pos trivial]
        rw [readLine_append _ _ (natDec_no13 _)]
        simp only
        rw [parseNatDigits_natDec]
        simp only
        have hdrop : (natDec ps.length ++ 13 :: 10 :: (encodePairs ps ++ rest)).drop
            ((natDec ps.length).length + 2) = encodePairs ps ++ rest := by
          have h1 : natDec ps.length ++ 13 :: 10 :: (encodePairs ps ++ rest) =
              (natDec ps.length ++ [13, 10]) ++ (encodePairs ps ++ rest) := by simp
          have h2 : (natDec ps.length ++ [13, 10]).length =
              (natDec ps.length).length + 2 := by simp
          rw [h1, ← h2, List.drop_left]
        rw [hdrop]
        have hHk : ∀ p ∈ ps, ∀ r, decodeFuel F ((43 :: p.1 ++ CRLF) ++ r) =
            .Complete (.SimpleString p.1) (p.1.length + 3) := by
          intro p hp r
          have hkey := (hp_wf p hp).1
          have hbound := encodePairs_len_ge ps p hp
          have h2 := natDec_len_pos ps.length
          have happ := ih F (by omega) (.SimpleString p.1) r
            (by simpa [wfFrame] using hkey)
            (by rw [encodeFrame_simpleString_len]; omega)
          rw [encodeFrame_simpleString_len] at happ
          exact happ
        have hHv : ∀ p ∈ ps, ∀ r, decodeFuel F (encodeFrame p.2 ++ r) =
            .Complete p.2 (encodeFrame p.2).length := by
          intro p hp r
          have hbound := encodePairs_len_ge ps p hp
          have h2 := natDec_len_pos ps.length
          exact ih F (by omega) p.2 r (hp_wf p hp).2 (by omega)
        rw [pairsGo_encode (fun b => decodeFuel F b) ps hHk hHv rest]
        simp only [DecodeResult.Complete.injEq]
        refine ⟨trivial, ?_⟩
        omega
      | Set xs =>
        simp only [wfFrame] at hwf
        have hx_wf := wfList_mem xs hwf
        have hlen_arr : (encodeFrame (.Set xs)).length =
            1 + ((natDec xs.length).length + 2 + (encodeList xs).length) := by
          simp [encodeFrame, CRLF]
          omega
        have hshape : encodeFrame (.Set xs) ++ rest =
            126 :: (natDec xs.length ++ 13 :: 10 :: (encodeList xs ++ rest)) := by
          simp [encodeFrame, CRLF]
        rw [hshape]
        simp only [decodeFuel]
        rw [if_neg (by norm_num), if_neg (by norm_num), if_neg (by norm_num),
          if_neg (by norm_num), if_neg (by norm_num), if_neg (by norm_num),
          if_neg (by norm_num), if_neg (by norm_num), if_neg (by norm_num),
          if_pos trivial]
        rw [readLine_append _ _ (natDec_no13 _)]
        simp only
        rw [parseNatDigits_natDec]
        simp only
        have hdrop : (natDec xs.length ++ 13 :: 10 :: (encodeList xs ++ rest)).drop
            ((natDec xs.length).length + 2) = encodeList xs ++ rest := by
          have h1 : natDec xs.length ++ 13 :: 10 :: (encodeList xs ++ rest) =
              (natDec xs.length ++ [13, 10]) ++ (encodeList xs ++ rest) := by simp
          have h2 : (natDec xs.length ++ [13, 10]).length =
              (natDec xs.length).length + 2 := by simp
          rw [h1, ← h2, List.drop_left]
        rw [hdrop]
        have hH : ∀ x ∈ xs, ∀ r, decodeFuel F (encodeFrame x ++ r) =
            .Complete x (encodeFrame x).length := by
          intro x hx r
          apply ih F (by omega) x r (hx_wf x hx)
          have h1 := encodeList_len_ge xs x hx
          have h2 := natDec_len_pos xs.length
          omega
        rw [elemsGo_encode (fun b => decodeFuel F b) xs hH rest]
        simp only [DecodeResult.Complete.injEq]
        refine ⟨trivial, ?_⟩
        omega

/-- C9: For every representable (well-formed) frame `f`, decoding the bytes
produced by `encodeFrame f` yields `Complete f n` where `n` is the length of
`encodeFrame f` — decode is a left inverse of encode. -/
theorem decode_encode_roundtrip (f : RespFrame) (hwf : wfFrame f = true) :
    decode (encodeFrame f) = .Complete f (encodeFrame f).length := by
  have h := decodeFuel_encode ((encodeFrame f).length + 1) f [] hwf (Nat.lt_succ_self _)
  rw [List.append_nil] at h
  simpa [decode] using h

theorem decode_encode_roundtrip_witness :
    wfFrame (.Array [.BulkString [104, 101, 108, 108, 111], .Integer (-7),
      .Map [([97], .SimpleString [111, 107])], .Double ⟨-123, 7⟩,
      .NullBulkString]) = true ∧
    decode (encodeFrame (.Array [.BulkString [104, 101, 108, 108, 111],
      .Integer (-7), .Map [([97], .SimpleString [111, 107])],
      .Double ⟨-123, 7⟩, .NullBulkString])) =
      .Complete (.Array [.BulkString [104, 101, 108, 108, 111], .Integer (-7),
        .Map [([97], .SimpleString [111, 107])], .Double ⟨-123, 7⟩,
        .NullBulkString])
        (encodeFrame (.Array [.BulkString [104, 101, 108, 108, 111],
          .Integer (-7), .Map [([97], .SimpleString [111, 107])],
          .Double ⟨-123, 7⟩, .NullBulkString])).length :=
  ⟨rfl, decode_encode_roundtrip _ rfl⟩

end SimpleRedis
